import Mathlib

/-!
# fleetcmdr: metadata codec, pipeline loader and reconciliation loop

A shallow embedding of `main.go` of `captncraig/fleetcmdr`.

* Text is a list of Unicode characters (`Text`); a Go string holding valid
  UTF-8 is such a list, and `regexp` and `strings` both work rune by rune.
* `matchersRegex` is the pattern of line 153 as a syntax tree, run by a
  backtracking matcher that lists the possible threads in priority order;
  Go's leftmost-first match is the first thread of the leftmost position
  that has one.
* The callback of `filepath.Walk` is a function of the arguments Walk passes
  to it; the walk itself is the sequence of those invocations.
* The remote store is an oracle that tells which calls fail; a run of the
  reconciliation loops yields the sequence of attempted calls.
-/

namespace Fleetcmdr

/-- Text: the runes of a Go string. -/
abbrev Text := List Char

/-! ## Go's `regexp`, as far as line 153 needs it -/

/-- The class `\s` of Go's regexp syntax: `[\t\n\f\r ]`. -/
def reSpace (c : Char) : Bool :=
  c == '\t' || c == '\n' || c == '\x0c' || c == '\r' || c == ' '

/-- The class `.` without the `s` flag: every character but the line feed. -/
def reDot (c : Char) : Bool :=
  c != '\n'

/-- The regular expressions that occur in `matchersRegex`. Repetition is
greedy and only applied to single characters and character classes. -/
inductive Regex where
  /-- The empty expression. -/
  | eps : Regex
  /-- The assertion `^` under the flag `m`: start of text or after a line feed. -/
  | bol : Regex
  /-- The assertion `$` under the flag `m`: end of text or before a line feed. -/
  | eol : Regex
  /-- One literal character. -/
  | lit : Char → Regex
  /-- Greedy `c*` for a character class `c`. -/
  | star : (Char → Bool) → Regex
  /-- Greedy `c+` for a character class `c`. -/
  | plus : (Char → Bool) → Regex
  /-- Greedy `a?` for a literal character `a`. -/
  | opt : Char → Regex
  /-- The capture group number 1. -/
  | group : Regex → Regex
  /-- Concatenation. -/
  | seq : Regex → Regex → Regex

/-- Concatenation of a list of expressions. -/
def Regex.cat (rs : List Regex) : Regex :=
  rs.foldr Regex.seq Regex.eps

/-- A thread of the matcher: the character before the cursor (`none` at the
start of the text), the text from the cursor on, and what group 1 captured. -/
structure Thread where
  prev : Option Char
  rest : Text
  cap : Option Text

/-- The threads of a greedy `c*` in priority order: longest run first. -/
def starThreads (p : Char → Bool) (cap : Option Text) : Option Char → Text → List Thread
  | prev, [] => [⟨prev, [], cap⟩]
  | prev, c :: cs =>
    if p c then starThreads p cap (some c) cs ++ [⟨prev, c :: cs, cap⟩]
    else [⟨prev, c :: cs, cap⟩]

/-- One step over a literal character. -/
def litThreads (a : Char) (t : Thread) : List Thread :=
  match t.rest with
  | [] => []
  | c :: cs => if c = a then [⟨some c, cs, t.cap⟩] else []

/-- All ways an expression can match at the cursor of a thread, in the order
in which a backtracking search tries them. -/
def run : Regex → Thread → List Thread
  | .eps, t => [t]
  | .bol, t => if t.prev = none ∨ t.prev = some '\n' then [t] else []
  | .eol, t =>
    match t.rest with
    | [] => [t]
    | c :: _ => if c = '\n' then [t] else []
  | .lit a, t => litThreads a t
  | .star p, t => starThreads p t.cap t.prev t.rest
  | .plus p, t =>
    match t.rest with
    | [] => []
    | c :: cs => if p c then starThreads p t.cap (some c) cs else []
  | .opt a, t => litThreads a t ++ [t]
  | .group r, t =>
    (run r t).map fun u =>
      { u with cap := some (t.rest.take (t.rest.length - u.rest.length)) }
  | .seq a b, t => (run a t).flatMap (run b)

/-- The match of `re` that starts at the cursor, if there is one: the text
of group 1 and the text that follows the match. -/
def matchAt (re : Regex) (prev : Option Char) (s : Text) : Option (Text × Text) :=
  (run re ⟨prev, s, none⟩).head?.map fun t => (t.cap.getD [], t.rest)

/-- Line 153: the pattern `(?m)^\s*//\s*matchers?:?\s+(.*)$`. -/
def matchersRegex : Regex :=
  Regex.cat
    [.bol, .star reSpace, .lit '/', .lit '/', .star reSpace,
     .lit 'm', .lit 'a', .lit 't', .lit 'c', .lit 'h', .lit 'e', .lit 'r',
     .opt 's', .opt ':', .plus reSpace, .group (.star reDot), .eol]

/-- The loop of `FindAllStringSubmatch(s, -1)`: the successive leftmost
matches, none overlapping the one before; each is the matched text and the
text of group 1. The counter is the number of characters of the last match
still to be passed over. (The pattern cannot match the empty text, so the
rule for empty matches is left out.) -/
def findAllFrom (re : Regex) : Option Char → Text → Nat → List (Text × Text)
  | _, [], _ => []
  | _, c :: cs, k + 1 => findAllFrom re (some c) cs k
  | prev, c :: cs, 0 =>
    match matchAt re prev (c :: cs) with
    | some (cap, post) =>
      ((c :: cs).take ((c :: cs).length - post.length), cap)
        :: findAllFrom re (some c) cs (cs.length - post.length)
    | none => findAllFrom re (some c) cs 0

/-- The call `re.FindAllStringSubmatch(s, -1)`. -/
def FindAllStringSubmatch (re : Regex) (s : Text) : List (Text × Text) :=
  findAllFrom re none s 0

/-- The loop of `ReplaceAllString(src, "")`: the text outside the matches. -/
def replaceAllFrom (re : Regex) : Option Char → Text → Nat → Text
  | _, [], _ => []
  | _, c :: cs, k + 1 => replaceAllFrom re (some c) cs k
  | prev, c :: cs, 0 =>
    match matchAt re prev (c :: cs) with
    | some (_, post) => replaceAllFrom re (some c) cs (cs.length - post.length)
    | none => c :: replaceAllFrom re (some c) cs 0

/-- The call `re.ReplaceAllString(src, "")`. -/
def ReplaceAllString (re : Regex) (src : Text) : Text :=
  replaceAllFrom re none src 0

/-! ## Go's `unicode`, `strings` and `path/filepath` (Unix), as far as used -/

/-- Go's `unicode.IsSpace`. -/
def IsSpace (c : Char) : Bool :=
  let n := c.toNat
  n == 0x09 || n == 0x0A || n == 0x0B || n == 0x0C || n == 0x0D || n == 0x20
    || n == 0x85 || n == 0xA0 || n == 0x1680 || (0x2000 ≤ n && n ≤ 0x200A)
    || n == 0x2028 || n == 0x2029 || n == 0x202F || n == 0x205F || n == 0x3000

/-- Go's `strings.TrimSpace`. -/
def TrimSpace (s : Text) : Text :=
  (s.dropWhile IsSpace).rdropWhile IsSpace

/-- Go's `strings.Split(s, " ")`: the pieces between the single spaces; one
piece more than there are spaces, so one empty piece for the empty text. -/
def Split (s : Text) : List Text :=
  s.splitOn ' '

/-- Go's `strings.Join(parts, " ")`. -/
def Join (parts : List Text) : Text :=
  [' '].intercalate parts

/-- Go's `strings.TrimSuffix`. -/
def TrimSuffix (s suffix : Text) : Text :=
  if suffix.isSuffixOf s then s.take (s.length - suffix.length) else s

/-- Go's `filepath.Ext`: from the last dot of the last path element on. -/
def Ext (path : Text) : Text :=
  let elem := path.reverse.takeWhile (· != '/')
  if elem.contains '.' then '.' :: (elem.takeWhile (· != '.')).reverse else []

/-- Go's `filepath.Base`: the last path element, trailing slashes dropped. -/
def Base (path : Text) : Text :=
  if path.isEmpty then ['.']
  else
    let p := path.rdropWhile (· == '/')
    let elem := (p.reverse.takeWhile (· != '/')).reverse
    if elem.isEmpty then ['/'] else elem

/-! ## The data model -/

/-- The fields of `pipev1.Pipeline` that the program sets and reads. -/
structure Pipeline where
  Matchers : List Text
  Contents : Text
  Name : Text
deriving DecidableEq

/-- A Go `error` value, by its message. -/
abbrev GoError := Text

/-- What a Go function that may crash gives: a panic, an error, or a value. -/
inductive Result (α : Type) where
  | panic : Result α
  | error : GoError → Result α
  | ok : α → Result α
deriving DecidableEq

/-! ## `loadPipelinesFromFiles` (lines 155-193) -/

/-- The `fs.FileInfo` of a walked entry, as far as the callback reads it. -/
structure FileInfo where
  IsDir : Bool
deriving DecidableEq

/-- One invocation of the callback by `filepath.Walk`: its three arguments,
and what `os.ReadFile(path)` gives when the callback gets that far. Walk
passes `info = nil` (here `none`) together with the error when `Lstat` of the
entry failed, and the directory's info together with the error when a
directory could not be listed; every other entry comes with `err = nil`. -/
structure WalkArgs where
  path : Text
  info : Option FileInfo
  err : Option GoError
  readFile : Except GoError Text

/-- Lines 173-185: from the content of a candidate file to its pipeline. -/
def parsePipeline (path pipeName content : Text) : Except GoError Pipeline :=
  let found := FindAllStringSubmatch matchersRegex content
  if found.length > 1 then
    .error (path ++ ": Only one matchers comment allowed".toList)
  else
    let matchers : List Text :=
      match found with
      | [m] => Split (TrimSpace m.2)
      | _ => []
    .ok { Matchers := matchers
          Contents := ReplaceAllString matchersRegex content
          Name := pipeName }

/-- The callback of lines 157-188. `none` is a nil pointer dereference
(`info.IsDir()` on a nil `info`); otherwise the returned error, if any, and
the slice `pipes` after the call. -/
def walkFn (pipes : List Pipeline) (a : WalkArgs) : Option (Option GoError × List Pipeline) :=
  match a.info with
  | none => none
  | some info =>
    if info.IsDir then some (none, pipes)
    else
      match a.err with
      | some e => some (some e, pipes)
      | none =>
        let ext := Ext a.path
        if ext ≠ ".alloy".toList ∧ ext ≠ ".river".toList then some (none, pipes)
        else
          let pipeName := TrimSuffix (Base a.path) ext
          match a.readFile with
          | .error e => some (some e, pipes)
          | .ok content =>
            match parsePipeline a.path pipeName content with
            | .error e => some (some e, pipes)
            | .ok pipe => some (none, pipes ++ [pipe])

/-- The run of `filepath.Walk` over its invocations of the callback: it
stops at the first one that returns an error and returns that error. -/
def walkFrom : List Pipeline → List WalkArgs → Result (List Pipeline)
  | pipes, [] => .ok pipes
  | pipes, a :: rest =>
    match walkFn pipes a with
    | none => .panic
    | some (some e, _) => .error e
    | some (none, pipes') => walkFrom pipes' rest

/-- Lines 155-193: `(nil, err)` is `.error err`, `(pipes, nil)` is `.ok pipes`. -/
def loadPipelinesFromFiles (walk : List WalkArgs) : Result (List Pipeline) :=
  walkFrom [] walk

/-! ## `writePipelineToFile` (lines 195-208) -/

/-- Lines 197-202: the content handed to `os.WriteFile`. (The path,
`filepath.Join(dir, p.Name+".alloy")`, plays no part in what follows.) -/
def writePipelineToFile (p : Pipeline) : Text :=
  if p.Matchers.length > 0 then
    Join ("// matchers:".toList :: p.Matchers) ++ '\n' :: p.Contents
  else p.Contents

/-! ## The reconciliation loops of `main` (lines 85-134) -/

/-- A request to the remote pipeline service. -/
inductive Call where
  | update : Pipeline → Call
  | create : Pipeline → Call
  | delete : Text → Call
deriving DecidableEq

/-- An attempted call and whether it failed. -/
structure Attempt where
  call : Call
  failed : Bool
deriving DecidableEq

/-- A Go `map[string]bool` in which every stored value is `true`: its keys. -/
abbrev NameSet := List Text

/-- The assignment `m[k] = true`. -/
def NameSet.set (m : NameSet) (k : Text) : NameSet :=
  if k ∈ m then m else m ++ [k]

/-- The lookup `m[k]`. -/
def NameSet.get (m : NameSet) (k : Text) : Bool :=
  decide (k ∈ m)

/-- Lines 85-90: the set of the names of a slice of pipelines. -/
def namesOf (ps : List Pipeline) : NameSet :=
  ps.foldl (fun m p => m.set p.Name) []

/-- Lines 91-117: one call for every element of `pipes`; an error is logged
and the loop goes on. `fails i` tells whether the call number `i` of the run
fails; `done` holds the attempts made so far. -/
def upsertLoop (fails : Nat → Bool) (remoteNames : NameSet) :
    List Pipeline → List Attempt → List Attempt
  | [], done => done
  | p :: ps, done =>
    let call := if remoteNames.get p.Name then Call.update p else Call.create p
    upsertLoop fails remoteNames ps (done ++ [⟨call, fails done.length⟩])

/-- Lines 120-133: the purge loop over the keys of `remoteNames` in the
order the runtime ranges over them; `true` when `log.Fatal` ended the run. -/
def purgeLoop (fails : Nat → Bool) (localNames : NameSet) :
    List Text → List Attempt → List Attempt × Bool
  | [], done => (done, false)
  | name :: names, done =>
    if !localNames.get name then
      if fails done.length then (done ++ [⟨Call.delete name, true⟩], true)
      else purgeLoop fails localNames names (done ++ [⟨Call.delete name, false⟩])
    else purgeLoop fails localNames names done

/-- Lines 85-134 of `main`: the attempts of a run and whether a failed
delete ended it. `range` is the order in which the runtime ranges over the
keys of a map, which Go leaves unspecified. -/
def reconcile (fails : Nat → Bool) (range : List Text → List Text) (flagPurge : Bool)
    (pipes remote : List Pipeline) : List Attempt × Bool :=
  let remoteNames := namesOf remote
  let localNames := namesOf pipes
  let done := upsertLoop fails remoteNames pipes []
  if flagPurge then purgeLoop fails localNames (range remoteNames) done
  else (done, false)

/-! ## The match of `matchersRegex` at a position, read from left to right -/

/-- The text after the literal characters `lits`, when the text starts with them. -/
def dropLits : Text → Text → Option Text
  | [], s => some s
  | _ :: _, [] => none
  | a :: as, c :: cs => if c = a then dropLits as cs else none

/-- The text after an optional literal character. -/
def dropOpt (a : Char) : Text → Text
  | [] => []
  | c :: cs => if c = a then cs else c :: cs

/-- What `matchersRegex` matches at the cursor, read off the pattern from left
to right: each greedy step takes all it can. The result is the text of
group 1 and the text after the match. -/
def directiveAt (prev : Option Char) (s : Text) : Option (Text × Text) :=
  if prev = none ∨ prev = some '\n' then
    (dropLits ['/', '/'] (s.dropWhile reSpace)).bind fun s1 =>
    (dropLits ['m', 'a', 't', 'c', 'h', 'e', 'r'] (s1.dropWhile reSpace)).bind fun s2 =>
    match dropOpt ':' (dropOpt 's' s2) with
    | [] => none
    | c :: cs =>
      if reSpace c then
        some ((cs.dropWhile reSpace).takeWhile reDot, (cs.dropWhile reSpace).dropWhile reDot)
      else none
  else none

/-- The character before the cursor after a greedy `c*`. -/
def skipPrev (p : Char → Bool) : Option Char → Text → Option Char
  | prev, [] => prev
  | prev, c :: cs => if p c then skipPrev p (some c) cs else prev

/-- The first match of an expression at a thread: group 1 and the text after. -/
def firstMatch (r : Regex) (t : Thread) : Option (Text × Text) :=
  (run r t).head?.map fun u => (u.cap.getD [], u.rest)

/-- A run of literal characters in front of an expression. -/
def litsThen (lits : Text) (r : Regex) : Regex :=
  lits.foldr (fun a r => .seq (.lit a) r) r

/-- The text of group 1 and the text after the match, for `\s+(.*)$`. -/
def tailAt : Text → Option (Text × Text)
  | [] => none
  | c :: cs =>
    if reSpace c then
      some ((cs.dropWhile reSpace).takeWhile reDot, (cs.dropWhile reSpace).dropWhile reDot)
    else none

/-- The four spellings of the keyword with its optional colon. -/
def keywords : List Text :=
  ["matcher".toList, "matchers".toList, "matcher:".toList, "matchers:".toList]

/-- A pattern none of whose matches is empty: the matched text `m` stands in
front of the text that follows the match. -/
def Proper (re : Regex) : Prop :=
  ∀ prev s cap post, matchAt re prev s = some (cap, post) → ∃ m, m ≠ [] ∧ s = m ++ post

/-- The character before the cursor once the text `m` has been passed. -/
def prevAfter (prev : Option Char) (m : Text) : Option Char :=
  match m.getLast? with
  | some c => some c
  | none => prev

/-! ## Lines and directive lines -/

/-- The lines of a document: the pieces between its line feeds. -/
def lines (doc : Text) : List Text :=
  doc.splitOn '\n'

/-- A line is a directive line when the pattern of line 153 matches the line
taken alone. -/
def isDirectiveLine (line : Text) : Bool :=
  !(FindAllStringSubmatch matchersRegex line).isEmpty

/-- The directive lines of a document, in order. -/
def directiveLines (doc : Text) : List Text :=
  (lines doc).filter isDirectiveLine

/-- A directive line that holds a token: the pattern matches the whole line
and group 1 is not empty. -/
def isTokenLine (line : Text) : Bool :=
  match matchAt matchersRegex none line with
  | some (cap, []) => !cap.isEmpty
  | _ => false

/-- A text that ends in a line feed. -/
def EndsLine (d : Text) : Prop :=
  ∃ e, d = e ++ ['\n']

/-! ## Reading a run of the reconciliation loops -/

/-- The call that lines 91-117 issue for a local pipeline, given the names
of the remote pipelines. -/
def upsertCall (remoteNames : List Text) (p : Pipeline) : Call :=
  if p.Name ∈ remoteNames then Call.update p else Call.create p

/-- The pipeline that a create or update call carries. -/
def Call.carried : Call → Option Pipeline
  | .update p => some p
  | .create p => some p
  | .delete _ => none

/-- The name that a delete call carries. -/
def Call.deleted : Call → Option Text
  | .delete n => some n
  | _ => none

/-- The pipelines of the create and update calls of a run, in order. -/
def upserted (run : List Attempt) : List Pipeline :=
  run.filterMap fun a => a.call.carried

/-- The names of the delete calls of a run, in order. -/
def deletedNames (run : List Attempt) : List Text :=
  run.filterMap fun a => a.call.deleted

/-- A file entry of a walk, with its content. -/
def fileEntry (path content : String) : WalkArgs :=
  ⟨path.toList, some ⟨false⟩, none, .ok content.toList⟩

/-- A directory entry of a walk; `err` is the error of listing it, if any. -/
def dirEntry (path : String) (err : Option String) : WalkArgs :=
  ⟨path.toList, some ⟨true⟩, err.map String.toList, .error "is a directory".toList⟩

/-- An entry whose `Lstat` failed: Walk passes a nil `info` and the error. -/
def lstatFailed (path err : String) : WalkArgs :=
  ⟨path.toList, none, some err.toList, .error err.toList⟩

/-! ## The backtracking matcher agrees with the left-to-right reading -/

theorem starThreads_flatMap (p : Char → Bool) (k : Thread → List Thread)
    (hk : ∀ prev c cs cap, p c = true → k ⟨prev, c :: cs, cap⟩ = [])
    (cap : Option Text) (prev : Option Char) (s : Text) :
    (starThreads p cap prev s).flatMap k = k ⟨skipPrev p prev s, s.dropWhile p, cap⟩ := by
  induction s generalizing prev with
  | nil => simp [starThreads, skipPrev]
  | cons c cs ih =>
    by_cases hc : p c = true
    · simp [starThreads, skipPrev, hc, List.flatMap_append, ih, hk prev c cs cap hc]
    · simp [starThreads, skipPrev, hc]

theorem starThreads_head (p : Char → Bool) (cap : Option Text) (prev : Option Char) (s : Text) :
    ∃ tl, starThreads p cap prev s = ⟨skipPrev p prev s, s.dropWhile p, cap⟩ :: tl := by
  induction s generalizing prev with
  | nil => exact ⟨[], by simp [starThreads, skipPrev]⟩
  | cons c cs ih =>
    by_cases hc : p c = true
    · obtain ⟨tl, h⟩ := ih (some c)
      exact ⟨tl ++ [⟨prev, c :: cs, cap⟩], by simp [starThreads, skipPrev, hc, h]⟩
    · exact ⟨[], by simp [starThreads, skipPrev, hc]⟩

theorem run_seq_lit (a : Char) (r : Regex) (t : Thread) :
    run (.seq (.lit a) r) t =
      match t.rest with
      | [] => []
      | c :: cs => if c = a then run r ⟨some c, cs, t.cap⟩ else [] := by
  obtain ⟨prev, rest, cap⟩ := t
  cases rest with
  | nil => simp [run, litThreads]
  | cons c cs => by_cases h : c = a <;> simp [run, litThreads, h]

theorem takeWhile_eq_take_sub (p : Char → Bool) (s : Text) :
    s.take (s.length - (s.dropWhile p).length) = s.takeWhile p := by
  have h := List.takeWhile_append_dropWhile p s
  have hl : s.length = (s.takeWhile p).length + (s.dropWhile p).length := by
    rw [← List.length_append, h]
  have e : s.length - (s.dropWhile p).length = (s.takeWhile p).length := by omega
  rw [e]
  have : List.take (s.takeWhile p).length (s.takeWhile p ++ s.dropWhile p) = s.takeWhile p :=
    List.take_left' rfl
  rwa [h] at this

theorem dropWhile_reDot_cases (s : Text) :
    s.dropWhile reDot = [] ∨ ∃ tl, s.dropWhile reDot = '\n' :: tl := by
  induction s with
  | nil => exact Or.inl rfl
  | cons c cs ih =>
    by_cases hc : reDot c = true
    · rw [List.dropWhile_cons_of_pos hc]
      exact ih
    · have : c = '\n' := by simpa [reDot] using hc
      subst this
      rw [List.dropWhile_cons_of_neg hc]
      exact Or.inr ⟨cs, rfl⟩

/-- The last three items of the pattern, `\s+(.*)$`: once a white space
character stands at the cursor they always match, and the first thread takes
all white space and then the rest of the line. -/
theorem run_tail_head (t : Thread) :
    ((run (.seq (.plus reSpace) (.seq (.group (.star reDot)) (.seq .eol .eps))) t).head?.map
        fun u => (u.cap.getD [], u.rest)) =
      match t.rest with
      | [] => none
      | c :: cs =>
        if reSpace c then
          some ((cs.dropWhile reSpace).takeWhile reDot, (cs.dropWhile reSpace).dropWhile reDot)
        else none := by
  obtain ⟨prev, rest, cap⟩ := t
  cases rest with
  | nil => simp [run]
  | cons c cs =>
    by_cases hc : reSpace c = true
    · obtain ⟨tl, h⟩ := starThreads_head reSpace cap (some c) cs
      obtain ⟨tl2, h2⟩ := starThreads_head reDot cap (skipPrev reSpace (some c) cs)
        (cs.dropWhile reSpace)
      simp only [run, hc, if_true, h, List.flatMap_cons, h2, List.map_cons,
        takeWhile_eq_take_sub]
      rcases dropWhile_reDot_cases (cs.dropWhile reSpace) with h3 | ⟨tl3, h3⟩ <;>
        simp [h3]
    · simp [run, hc]

theorem dropOpt_run (a : Char) (k : Thread → List Thread)
    (hk : ∀ prev cs cap, k ⟨prev, a :: cs, cap⟩ = []) (t : Thread) :
    ∃ prev, (run (.opt a) t).flatMap k = k ⟨prev, dropOpt a t.rest, t.cap⟩ := by
  obtain ⟨prev, rest, cap⟩ := t
  cases rest with
  | nil => exact ⟨prev, by simp [run, litThreads, dropOpt]⟩
  | cons c cs =>
    by_cases h : c = a
    · subst h
      exact ⟨some c, by simp [run, litThreads, dropOpt, hk]⟩
    · exact ⟨prev, by simp [run, litThreads, dropOpt, h]⟩

theorem run_eq_nil_of_firstMatch {r : Regex} {t : Thread} (h : firstMatch r t = none) :
    run r t = [] := by
  unfold firstMatch at h
  cases hr : run r t with
  | nil => rfl
  | cons a l => simp [hr] at h

theorem firstMatch_bol (r : Regex) (t : Thread) :
    firstMatch (.seq .bol r) t =
      if t.prev = none ∨ t.prev = some '\n' then firstMatch r t else none := by
  unfold firstMatch
  by_cases h : t.prev = none ∨ t.prev = some '\n'
  · simp only [run, if_pos h, List.flatMap_cons, List.flatMap_nil, List.append_nil]
  · simp only [run, if_neg h, List.flatMap_nil, List.head?_nil, Option.map_none']

theorem firstMatch_star (p : Char → Bool) (r : Regex) (g : Text → Option (Text × Text))
    (h : ∀ t, firstMatch r t = g t.rest) (hg : ∀ c cs, p c = true → g (c :: cs) = none)
    (t : Thread) : firstMatch (.seq (.star p) r) t = g (t.rest.dropWhile p) := by
  have hk : ∀ prev c cs cap, p c = true → run r ⟨prev, c :: cs, cap⟩ = [] := by
    intro prev c cs cap hc
    apply run_eq_nil_of_firstMatch
    rw [h]
    exact hg c cs hc
  have e := starThreads_flatMap p (run r) hk t.cap t.prev t.rest
  have : firstMatch (.seq (.star p) r) t
      = firstMatch r ⟨skipPrev p t.prev t.rest, t.rest.dropWhile p, t.cap⟩ := by
    unfold firstMatch
    simp only [run]
    rw [e]
  rw [this, h]

theorem firstMatch_opt (a : Char) (r : Regex) (g : Text → Option (Text × Text))
    (h : ∀ t, firstMatch r t = g t.rest) (hg : ∀ cs, g (a :: cs) = none)
    (t : Thread) : firstMatch (.seq (.opt a) r) t = g (dropOpt a t.rest) := by
  have hk : ∀ prev cs cap, run r ⟨prev, a :: cs, cap⟩ = [] := by
    intro prev cs cap
    apply run_eq_nil_of_firstMatch
    rw [h]
    exact hg cs
  obtain ⟨prev, e⟩ := dropOpt_run a (run r) hk t
  have : firstMatch (.seq (.opt a) r) t = firstMatch r ⟨prev, dropOpt a t.rest, t.cap⟩ := by
    unfold firstMatch
    rw [← e]
    rfl
  rw [this, h]

theorem firstMatch_lits (lits : Text) (r : Regex) (g : Text → Option (Text × Text))
    (h : ∀ t, firstMatch r t = g t.rest) (t : Thread) :
    firstMatch (litsThen lits r) t = (dropLits lits t.rest).bind g := by
  induction lits generalizing t with
  | nil => simp [litsThen, dropLits, h]
  | cons a as ih =>
    obtain ⟨prev, rest, cap⟩ := t
    cases rest with
    | nil => simp [litsThen, firstMatch, run_seq_lit, dropLits]
    | cons c cs =>
      by_cases hc : c = a
      · have := ih ⟨some c, cs, cap⟩
        simp only [litsThen, firstMatch] at this
        simp [litsThen, firstMatch, run_seq_lit, dropLits, hc]
        simpa [hc] using this
      · simp [litsThen, firstMatch, run_seq_lit, dropLits, hc]

theorem dropLits_cons_ne (a : Char) (as : Text) (c : Char) (cs : Text) (h : c ≠ a) :
    dropLits (a :: as) (c :: cs) = none := by
  simp [dropLits, h]

/-- The backtracking matcher and the left-to-right reading agree on the
pattern of line 153. -/
theorem matchAt_matchersRegex (prev : Option Char) (s : Text) :
    matchAt matchersRegex prev s = directiveAt prev s := by
  have h1 : ∀ t, firstMatch (.seq (.plus reSpace) (.seq (.group (.star reDot)) (.seq .eol .eps))) t
      = tailAt t.rest := by
    intro t
    rw [firstMatch, run_tail_head]
    cases t.rest <;> rfl
  have h2 : ∀ t, firstMatch (.seq (.opt ':') _) t = (fun s => tailAt (dropOpt ':' s)) t.rest :=
    firstMatch_opt ':' _ tailAt h1 (by intro cs; simp [tailAt, reSpace])
  have h3 : ∀ t, firstMatch (.seq (.opt 's') _) t
      = (fun s => tailAt (dropOpt ':' (dropOpt 's' s))) t.rest :=
    firstMatch_opt 's' _ (fun s => tailAt (dropOpt ':' s)) h2
      (by intro cs; simp [tailAt, dropOpt, reSpace])
  have h4 : ∀ t, firstMatch (litsThen ['m', 'a', 't', 'c', 'h', 'e', 'r'] _) t
      = (fun s => (dropLits ['m', 'a', 't', 'c', 'h', 'e', 'r'] s).bind
          fun s => tailAt (dropOpt ':' (dropOpt 's' s))) t.rest :=
    firstMatch_lits ['m', 'a', 't', 'c', 'h', 'e', 'r'] _
      (fun s => tailAt (dropOpt ':' (dropOpt 's' s))) h3
  have h5 : ∀ t, firstMatch (.seq (.star reSpace) _) t
      = (fun s => (dropLits ['m', 'a', 't', 'c', 'h', 'e', 'r'] (s.dropWhile reSpace)).bind
          fun s => tailAt (dropOpt ':' (dropOpt 's' s))) t.rest :=
    firstMatch_star reSpace _ (fun s => (dropLits ['m', 'a', 't', 'c', 'h', 'e', 'r'] s).bind
          fun s => tailAt (dropOpt ':' (dropOpt 's' s))) h4 (fun c cs hc => by
      have : c ≠ 'm' := fun e => by rw [e] at hc; exact absurd hc (by decide)
      show (dropLits ['m', 'a', 't', 'c', 'h', 'e', 'r'] (c :: cs)).bind _ = none
      rw [dropLits_cons_ne _ _ _ _ this]
      rfl)
  have h6 : ∀ t, firstMatch (litsThen ['/', '/'] _) t
      = (fun s => (dropLits ['/', '/'] s).bind fun s1 =>
          (dropLits ['m', 'a', 't', 'c', 'h', 'e', 'r'] (s1.dropWhile reSpace)).bind
          fun s => tailAt (dropOpt ':' (dropOpt 's' s))) t.rest :=
    firstMatch_lits ['/', '/'] _
      (fun s => (dropLits ['m', 'a', 't', 'c', 'h', 'e', 'r'] (s.dropWhile reSpace)).bind
          fun s => tailAt (dropOpt ':' (dropOpt 's' s))) h5
  have h7 : ∀ t, firstMatch (.seq (.star reSpace) _) t
      = (fun s => (dropLits ['/', '/'] (s.dropWhile reSpace)).bind fun s1 =>
          (dropLits ['m', 'a', 't', 'c', 'h', 'e', 'r'] (s1.dropWhile reSpace)).bind
          fun s => tailAt (dropOpt ':' (dropOpt 's' s))) t.rest :=
    firstMatch_star reSpace _ (fun s => (dropLits ['/', '/'] s).bind fun s1 =>
          (dropLits ['m', 'a', 't', 'c', 'h', 'e', 'r'] (s1.dropWhile reSpace)).bind
          fun s => tailAt (dropOpt ':' (dropOpt 's' s))) h6 (fun c cs hc => by
      have : c ≠ '/' := fun e => by rw [e] at hc; exact absurd hc (by decide)
      show (dropLits ['/', '/'] (c :: cs)).bind _ = none
      rw [dropLits_cons_ne _ _ _ _ this]
      rfl)
  have h8 := firstMatch_bol
    (.seq (.star reSpace) (litsThen ['/', '/'] (.seq (.star reSpace)
      (litsThen ['m', 'a', 't', 'c', 'h', 'e', 'r'] (.seq (.opt 's') (.seq (.opt ':')
        (.seq (.plus reSpace) (.seq (.group (.star reDot)) (.seq .eol .eps))))))))) ⟨prev, s, none⟩
  rw [h7] at h8
  show firstMatch matchersRegex ⟨prev, s, none⟩ = _
  have e : matchersRegex = .seq .bol (.seq (.star reSpace) (litsThen ['/', '/'] (.seq (.star reSpace)
      (litsThen ['m', 'a', 't', 'c', 'h', 'e', 'r'] (.seq (.opt 's') (.seq (.opt ':')
        (.seq (.plus reSpace) (.seq (.group (.star reDot)) (.seq .eol .eps))))))))) := rfl
  rw [e, h8]
  unfold directiveAt
  by_cases hb : prev = none ∨ prev = some '\n'
  · simp only [if_pos hb]
    cases h : dropLits ['/', '/'] (List.dropWhile reSpace s) with
    | none => rfl
    | some s1 =>
      simp only [Option.bind]
      cases h' : dropLits ['m', 'a', 't', 'c', 'h', 'e', 'r'] (List.dropWhile reSpace s1) with
      | none => rfl
      | some s2 =>
        cases dropOpt ':' (dropOpt 's' s2) <;> rfl
  · simp only [if_neg hb]

/-! ## What a match of the pattern looks like -/

theorem dropLits_some {lits s s1 : Text} (h : dropLits lits s = some s1) : s = lits ++ s1 := by
  induction lits generalizing s with
  | nil => simpa [dropLits] using h
  | cons a as ih =>
    cases s with
    | nil => simp [dropLits] at h
    | cons c cs =>
      by_cases hc : c = a
      · simp only [dropLits, hc, if_true] at h
        rw [hc, ih h]
        rfl
      · simp [dropLits, hc] at h

theorem dropOpt_cases (a : Char) (s : Text) :
    s = dropOpt a s ∨ s = a :: dropOpt a s := by
  cases s with
  | nil => exact Or.inl rfl
  | cons c cs =>
    by_cases hc : c = a
    · right
      simp [dropOpt, hc]
    · left
      simp [dropOpt, hc]

theorem dropWhile_head_false (p : Char → Bool) (s : Text) (c : Char)
    (h : (s.dropWhile p).head? = some c) : p c = false := by
  induction s with
  | nil => simp at h
  | cons a as ih =>
    by_cases ha : p a = true
    · rw [List.dropWhile_cons_of_pos ha] at h
      exact ih h
    · rw [List.dropWhile_cons_of_neg ha] at h
      simp only [List.head?_cons, Option.some.injEq] at h
      subst h
      simpa using ha

/-- The shape of a match of the pattern: white space, the comment marker,
white space, the keyword with its optional colon, at least one white space
character (line feeds included), then group 1: the rest of a line from a
character that is not white space on, or nothing at the end of the text. -/
theorem directiveAt_some {prev : Option Char} {s cap post : Text}
    (h : directiveAt prev s = some (cap, post)) :
    (prev = none ∨ prev = some '\n') ∧
    ∃ ws1 ws2 kw ws3, s = ws1 ++ ['/', '/'] ++ ws2 ++ kw ++ ws3 ++ cap ++ post ∧
      (∀ c ∈ ws1, reSpace c = true) ∧ (∀ c ∈ ws2, reSpace c = true) ∧ kw ∈ keywords ∧
      ws3 ≠ [] ∧ (∀ c ∈ ws3, reSpace c = true) ∧ (∀ c ∈ cap, c ≠ '\n') ∧
      (∀ c, cap.head? = some c → reSpace c = false) ∧
      (post = [] ∨ ∃ tl, post = '\n' :: tl) ∧ (cap = [] → post = []) := by
  unfold directiveAt at h
  by_cases hb : prev = none ∨ prev = some '\n'
  swap
  · simp [hb] at h
  rw [if_pos hb] at h
  refine ⟨hb, ?_⟩
  cases h1 : dropLits ['/', '/'] (s.dropWhile reSpace) with
  | none => simp [h1] at h
  | some s1 =>
    rw [h1] at h
    simp only [Option.bind] at h
    cases h2 : dropLits ['m', 'a', 't', 'c', 'h', 'e', 'r'] (s1.dropWhile reSpace) with
    | none => simp [h2] at h
    | some s2 =>
      rw [h2] at h
      simp only at h
      cases h3 : dropOpt ':' (dropOpt 's' s2) with
      | nil => simp [h3] at h
      | cons c cs =>
        rw [h3] at h
        by_cases hc : reSpace c = true
        swap
        · simp [hc] at h
        simp only [hc, if_true, Option.some.injEq, Prod.mk.injEq] at h
        obtain ⟨hcap, hpost⟩ := h
        have e1 := dropLits_some h1
        have e2 := dropLits_some h2
        have es : s = s.takeWhile reSpace ++ s.dropWhile reSpace :=
          (List.takeWhile_append_dropWhile _ _).symm
        have es1 : s1 = s1.takeWhile reSpace ++ s1.dropWhile reSpace :=
          (List.takeWhile_append_dropWhile _ _).symm
        have ecs : cs = cs.takeWhile reSpace ++ cs.dropWhile reSpace :=
          (List.takeWhile_append_dropWhile _ _).symm
        have ecp : cs.dropWhile reSpace = cap ++ post := by
          rw [← hcap, ← hpost]
          exact (List.takeWhile_append_dropWhile _ _).symm
        have hkw : ∃ suf ∈ [[], ['s'], [':'], ['s', ':']], s2 = suf ++ c :: cs := by
          rcases dropOpt_cases 's' s2 with a1 | a1 <;>
            rcases dropOpt_cases ':' (dropOpt 's' s2) with a2 | a2
          · exact ⟨[], by simp, a1.trans (a2.trans h3)⟩
          · exact ⟨[':'], by simp, a1.trans (a2.trans (by rw [h3]; rfl))⟩
          · exact ⟨['s'], by simp, a1.trans (by rw [a2.trans h3]; rfl)⟩
          · exact ⟨['s', ':'], by simp, a1.trans (by rw [a2.trans (by rw [h3])]; rfl)⟩
        obtain ⟨suf, hsuf, hs2⟩ := hkw
        refine ⟨s.takeWhile reSpace, s1.takeWhile reSpace,
          ['m', 'a', 't', 'c', 'h', 'e', 'r'] ++ suf, c :: cs.takeWhile reSpace,
          ?_, ?_, ?_, ?_, ?_, ?_, ?_, ?_, ?_, ?_⟩
        · calc s = s.takeWhile reSpace ++ (['/', '/'] ++ s1) := by rw [← e1]; exact es
            _ = s.takeWhile reSpace ++ (['/', '/'] ++ (s1.takeWhile reSpace
                  ++ (['m', 'a', 't', 'c', 'h', 'e', 'r'] ++ s2))) := by rw [← e2, ← es1]
            _ = s.takeWhile reSpace ++ (['/', '/'] ++ (s1.takeWhile reSpace
                  ++ (['m', 'a', 't', 'c', 'h', 'e', 'r'] ++ (suf ++ c ::
                    (cs.takeWhile reSpace ++ (cap ++ post)))))) := by rw [hs2, ← ecp, ← ecs]
            _ = _ := by simp
        · intro x hx
          exact (List.mem_takeWhile_imp hx)
        · intro x hx
          exact (List.mem_takeWhile_imp hx)
        · simp only [List.mem_cons, List.mem_singleton, List.not_mem_nil, or_false] at hsuf
          rcases hsuf with rfl | rfl | rfl | rfl <;> simp [keywords]
        · simp
        · intro x hx
          rcases List.mem_cons.1 hx with rfl | hx
          · exact hc
          · exact (List.mem_takeWhile_imp hx)
        · intro x hx
          rw [← hcap] at hx
          have := List.mem_takeWhile_imp hx
          simpa [reDot] using this
        · intro x hx
          rw [← hcap] at hx
          apply dropWhile_head_false reSpace cs x
          cases hd : cs.dropWhile reSpace with
          | nil => simp [hd] at hx
          | cons y ys =>
            rw [hd] at hx
            by_cases hy : reDot y = true
            · simpa [List.takeWhile_cons, hy] using hx
            · simp [List.takeWhile_cons, hy] at hx
        · rw [← hpost]
          exact dropWhile_reDot_cases _
        · intro hce
          rw [hce, List.nil_append] at ecp
          rcases dropWhile_reDot_cases (cs.dropWhile reSpace) with h4 | ⟨tl, h4⟩
          · rw [← hpost, h4]
          · rw [hpost] at h4
            rw [h4] at ecp
            have := dropWhile_head_false reSpace cs '\n' (by rw [ecp]; rfl)
            exact absurd this (by decide)

/-! ## The scan of `FindAllStringSubmatch` and `ReplaceAllString` -/

theorem proper_matchersRegex : Proper matchersRegex := by
  intro prev s cap post h
  rw [matchAt_matchersRegex] at h
  obtain ⟨-, ws1, ws2, kw, ws3, hs, -, -, -, hws3, -⟩ := directiveAt_some h
  exact ⟨ws1 ++ ['/', '/'] ++ ws2 ++ kw ++ ws3 ++ cap, by simp, by rw [hs]⟩

theorem prevAfter_cons (prev : Option Char) (c : Char) (m : Text) :
    prevAfter prev (c :: m) = prevAfter (some c) m := by
  cases m with
  | nil => rfl
  | cons d m =>
    have : (d :: m).getLast? = some ((d :: m).getLast (by simp)) := List.getLast?_eq_getLast _ _
    simp only [prevAfter, List.getLast?_cons_cons, this]

theorem prevAfter_append (prev : Option Char) (a b : Text) :
    prevAfter prev (a ++ b) = prevAfter (prevAfter prev a) b := by
  induction a generalizing prev with
  | nil => rfl
  | cons c a ih => rw [List.cons_append, prevAfter_cons, prevAfter_cons, ih]

theorem findAllFrom_skip (re : Regex) (m post : Text) (prev : Option Char) :
    findAllFrom re prev (m ++ post) m.length = findAllFrom re (prevAfter prev m) post 0 := by
  induction m generalizing prev with
  | nil => rfl
  | cons c m ih =>
    rw [prevAfter_cons, ← ih]
    rfl

theorem replaceAllFrom_skip (re : Regex) (m post : Text) (prev : Option Char) :
    replaceAllFrom re prev (m ++ post) m.length = replaceAllFrom re (prevAfter prev m) post 0 := by
  induction m generalizing prev with
  | nil => rfl
  | cons c m ih =>
    rw [prevAfter_cons, ← ih]
    rfl

theorem findAllFrom_match (re : Regex) {prev : Option Char} {m post cap : Text}
    (h : matchAt re prev (m ++ post) = some (cap, post)) (hm : m ≠ []) :
    findAllFrom re prev (m ++ post) 0 = (m, cap) :: findAllFrom re (prevAfter prev m) post 0 := by
  cases m with
  | nil => exact absurd rfl hm
  | cons c m =>
    rw [prevAfter_cons, ← findAllFrom_skip]
    rw [List.cons_append] at h ⊢
    simp only [findAllFrom, h]
    have e1 : (c :: (m ++ post)).length - post.length = (c :: m).length := by
      simp only [List.length_cons, List.length_append]
      omega
    have e2 : (m ++ post).length - post.length = m.length := by
      simp only [List.length_append]
      omega
    rw [e1, e2]
    congr 2
    exact List.take_left' rfl

theorem replaceAllFrom_match (re : Regex) {prev : Option Char} {m post cap : Text}
    (h : matchAt re prev (m ++ post) = some (cap, post)) (hm : m ≠ []) :
    replaceAllFrom re prev (m ++ post) 0 = replaceAllFrom re (prevAfter prev m) post 0 := by
  cases m with
  | nil => exact absurd rfl hm
  | cons c m =>
    rw [prevAfter_cons, ← replaceAllFrom_skip]
    rw [List.cons_append] at h ⊢
    simp only [replaceAllFrom, h]
    have e2 : (m ++ post).length - post.length = m.length := by
      simp only [List.length_append]
      omega
    rw [e2]

theorem findAllFrom_none (re : Regex) {prev : Option Char} {c : Char} {cs : Text}
    (h : matchAt re prev (c :: cs) = none) :
    findAllFrom re prev (c :: cs) 0 = findAllFrom re (some c) cs 0 := by
  simp only [findAllFrom, h]

theorem replaceAllFrom_none (re : Regex) {prev : Option Char} {c : Char} {cs : Text}
    (h : matchAt re prev (c :: cs) = none) :
    replaceAllFrom re prev (c :: cs) 0 = c :: replaceAllFrom re (some c) cs 0 := by
  simp only [replaceAllFrom, h]

/-- Where the scan finds nothing, the replacement changes nothing. -/
theorem replaceAllFrom_of_findAllFrom_nil (re : Regex) (prev : Option Char) (s : Text)
    (h : findAllFrom re prev s 0 = []) : replaceAllFrom re prev s 0 = s := by
  induction s generalizing prev with
  | nil => rfl
  | cons c cs ih =>
    cases hm : matchAt re prev (c :: cs) with
    | none =>
      rw [findAllFrom_none re hm] at h
      rw [replaceAllFrom_none re hm, ih _ h]
    | some r =>
      obtain ⟨cap, post⟩ := r
      simp [findAllFrom, hm] at h

/-- Where the scan finds exactly one match, the text is `pre ++ m ++ post`
with the match `m` found at the end of `pre`, and the replacement gives
`pre ++ post`. -/
theorem findAllFrom_single (re : Regex) (hp : Proper re) (prev : Option Char) (s m cap : Text)
    (h : findAllFrom re prev s 0 = [(m, cap)]) :
    ∃ pre post, s = pre ++ m ++ post ∧ replaceAllFrom re prev s 0 = pre ++ post ∧
      matchAt re (prevAfter prev pre) (m ++ post) = some (cap, post) ∧ m ≠ [] := by
  induction s generalizing prev with
  | nil => simp [findAllFrom] at h
  | cons c cs ih =>
    cases hm : matchAt re prev (c :: cs) with
    | none =>
      rw [findAllFrom_none re hm] at h
      obtain ⟨pre, post, e, hr, hmt, hne⟩ := ih _ h
      refine ⟨c :: pre, post, by rw [e]; rfl, ?_, ?_, hne⟩
      · rw [replaceAllFrom_none re hm, hr]
        rfl
      · rw [prevAfter_cons]
        exact hmt
    | some r =>
      obtain ⟨cap1, post⟩ := r
      obtain ⟨m1, hne, e⟩ := hp _ _ _ _ hm
      rw [e] at hm h ⊢
      rw [findAllFrom_match re hm hne] at h
      simp only [List.cons.injEq, Prod.mk.injEq] at h
      obtain ⟨⟨rfl, rfl⟩, hnil⟩ := h
      refine ⟨[], post, rfl, ?_, hm, hne⟩
      rw [replaceAllFrom_match re hm hne, replaceAllFrom_of_findAllFrom_nil re _ _ hnil]
      rfl

/-! ## Extraction: what `parsePipeline` gives -/

theorem lines_append_cons (a b : Text) : lines (a ++ '\n' :: b) = lines a ++ lines b := by
  unfold lines List.splitOn
  induction a with
  | nil => simp
  | cons c a ih =>
    rw [List.cons_append, List.splitOnP_cons, List.splitOnP_cons, ih]
    by_cases hc : (c == '\n') = true
    · simp [hc]
    · simp only [hc, if_false]
      cases h : List.splitOnP (fun x => x == '\n') a with
      | nil => exact absurd h (List.splitOnP_ne_nil _ _)
      | cons x xs => rfl

theorem lines_nil : lines [] = [[]] := rfl

/-- Without a match: no matchers, contents equal to the document. -/
theorem parsePipeline_of_no_match (path pipeName doc : Text)
    (h : FindAllStringSubmatch matchersRegex doc = []) :
    parsePipeline path pipeName doc = .ok ⟨[], doc, pipeName⟩ := by
  have hr : ReplaceAllString matchersRegex doc = doc :=
    replaceAllFrom_of_findAllFrom_nil _ _ _ h
  simp [parsePipeline, h, hr]

/-- With exactly one match: the matchers come from group 1, the contents
are what the replacement leaves. -/
theorem parsePipeline_of_single (path pipeName doc m cap : Text)
    (h : FindAllStringSubmatch matchersRegex doc = [(m, cap)]) :
    parsePipeline path pipeName doc =
      .ok ⟨Split (TrimSpace cap), ReplaceAllString matchersRegex doc, pipeName⟩ := by
  simp [parsePipeline, h]

/-- With two or more matches: the error of line 175. -/
theorem parsePipeline_of_many (path pipeName doc : Text)
    (h : 1 < (FindAllStringSubmatch matchersRegex doc).length) :
    parsePipeline path pipeName doc =
      .error (path ++ ": Only one matchers comment allowed".toList) := by
  simp [parsePipeline, h]

theorem prevAfter_none_cases (pre : Text)
    (h : prevAfter none pre = none ∨ prevAfter none pre = some '\n') :
    pre = [] ∨ ∃ p, pre = p ++ ['\n'] := by
  rcases List.eq_nil_or_concat pre with rfl | ⟨p, c, rfl⟩
  · exact Or.inl rfl
  · right
    rw [List.concat_eq_append] at h ⊢
    have e : (p ++ [c]).getLast? = some c := by simp
    simp only [prevAfter, e] at h
    rcases h with h | h
    · exact absurd h (by simp)
    · exact ⟨p, by rw [Option.some.inj h]⟩

/-- The document around its single match. -/
theorem single_match_shape (doc m cap : Text)
    (h : FindAllStringSubmatch matchersRegex doc = [(m, cap)]) :
    ∃ pre post, doc = pre ++ m ++ post ∧ ReplaceAllString matchersRegex doc = pre ++ post ∧
      directiveAt (prevAfter none pre) (m ++ post) = some (cap, post) ∧ m ≠ [] ∧
      (pre = [] ∨ ∃ p, pre = p ++ ['\n']) ∧ (post = [] ∨ ∃ tl, post = '\n' :: tl) := by
  obtain ⟨pre, post, e, hr, hm, hne⟩ :=
    findAllFrom_single matchersRegex proper_matchersRegex none doc m cap h
  rw [matchAt_matchersRegex] at hm
  obtain ⟨hb, -, -, -, -, -, -, -, -, -, -, -, -, hpost, -⟩ := directiveAt_some hm
  exact ⟨pre, post, e, hr, hm, hne, prevAfter_none_cases pre hb, hpost⟩

/-- For every document in which the pattern has exactly one
match, `Contents` is the document with the matched text cut out: the text
before the match and the text after it are kept unchanged and in order. The
match starts at a line start and ends at a line end, so in terms of lines:
the lines before the match and the lines after it are unchanged, and the
lines that the match covers are replaced by one empty line. -/
theorem contents_cuts_out_the_match (path pipeName doc m cap : Text)
    (h : FindAllStringSubmatch matchersRegex doc = [(m, cap)]) :
    ∃ pre post before after,
      doc = pre ++ m ++ post ∧
      parsePipeline path pipeName doc = .ok ⟨Split (TrimSpace cap), pre ++ post, pipeName⟩ ∧
      lines doc = before ++ lines m ++ after ∧
      lines (pre ++ post) = before ++ [[]] ++ after := by
  obtain ⟨pre, post, e, hr, -, -, hpre, hpost⟩ := single_match_shape doc m cap h
  have hp := parsePipeline_of_single path pipeName doc m cap h
  rw [hr] at hp
  rcases hpre with rfl | ⟨p, rfl⟩ <;> rcases hpost with rfl | ⟨tl, rfl⟩
  · exact ⟨[], [], [], [], e, hp, by rw [e]; simp, by simp [lines_nil]⟩
  · refine ⟨[], '\n' :: tl, [], lines tl, e, hp, ?_, ?_⟩
    · rw [e, List.nil_append, lines_append_cons, List.nil_append]
    · rw [List.nil_append, List.nil_append]
      exact lines_append_cons [] tl
  · refine ⟨p ++ ['\n'], [], lines p, [], e, hp, ?_, ?_⟩
    · rw [e, List.append_nil, List.append_nil, List.append_assoc, List.singleton_append,
        lines_append_cons]
    · rw [List.append_nil, List.append_nil, lines_append_cons, lines_nil]
  · refine ⟨p ++ ['\n'], '\n' :: tl, lines p, lines tl, e, hp, ?_, ?_⟩
    · rw [e, List.append_assoc, List.append_assoc, List.singleton_append, lines_append_cons,
        lines_append_cons, List.append_assoc]
    · have e2 : lines ('\n' :: tl) = [[]] ++ lines tl := lines_append_cons [] tl
      rw [List.append_assoc, List.singleton_append, lines_append_cons, e2, List.append_assoc]

theorem IsSpace_space : IsSpace ' ' = true := by decide

theorem IsSpace_tab : IsSpace '\t' = true := by decide

theorem TrimSpace_head (s : Text) (c : Char) (cs : Text) (h : TrimSpace s = c :: cs) :
    IsSpace c = false := by
  have hp : TrimSpace s <+: s.dropWhile IsSpace := List.rdropWhile_prefix _ _
  rw [h] at hp
  obtain ⟨r, hr⟩ := hp
  exact dropWhile_head_false IsSpace s c (by rw [← hr]; rfl)

/-- The first piece of a trimmed text that is not empty is not empty. -/
theorem Split_TrimSpace_head (s : Text) (h : TrimSpace s ≠ []) :
    ∃ t ts, Split (TrimSpace s) = t :: ts ∧ t ≠ [] := by
  cases hs : TrimSpace s with
  | nil => exact absurd hs h
  | cons c cs =>
    have hc : (c == ' ') = false := by
      cases hb : c == ' ' with
      | false => rfl
      | true =>
        rw [beq_iff_eq] at hb
        have := TrimSpace_head s c cs hs
        rw [hb] at this
        exact absurd this (by decide)
    unfold Split List.splitOn
    rw [List.splitOnP_cons]
    simp only [hc, Bool.false_eq_true, if_false]
    cases hr : List.splitOnP (fun x => x == ' ') cs with
    | nil => exact absurd hr (List.splitOnP_ne_nil _ _)
    | cons x xs => exact ⟨c :: x, xs, rfl, by simp⟩

/-- C7 (amended): for every document in which the pattern has exactly one
match and group 1 of that match is not blank, `Matchers` is the text of
group 1, trimmed and split at every single space character; its first
element is not empty. Group 1 follows the comment marker, the keyword, its
optional colon and a non-empty run of white space; it starts at a character
that is not white space, holds no line feed and runs to the end of its line.
When the trimmed text is a sequence of non-empty tokens free of white space
with one space between neighbours, `Matchers` is that sequence, so that no
matcher is empty or holds a space or a tab. -/
theorem matchers_of_single_match (path pipeName doc m cap : Text)
    (h : FindAllStringSubmatch matchersRegex doc = [(m, cap)])
    (hcap : TrimSpace cap ≠ []) :
    (∃ contents,
      parsePipeline path pipeName doc = .ok ⟨Split (TrimSpace cap), contents, pipeName⟩) ∧
    (∃ t ts, Split (TrimSpace cap) = t :: ts ∧ t ≠ []) ∧
    (∃ pre ws1 ws2 kw ws3 post,
      doc = pre ++ (ws1 ++ ['/', '/'] ++ ws2 ++ kw ++ ws3 ++ cap) ++ post ∧
      m = ws1 ++ ['/', '/'] ++ ws2 ++ kw ++ ws3 ++ cap ∧ kw ∈ keywords ∧
      ws3 ≠ [] ∧ (∀ c ∈ ws3, reSpace c = true) ∧ (∀ c ∈ cap, c ≠ '\n') ∧
      (∀ c, cap.head? = some c → reSpace c = false) ∧
      (post = [] ∨ ∃ tl, post = '\n' :: tl)) ∧
    (∀ toks : List Text, toks ≠ [] → (∀ t ∈ toks, t ≠ [] ∧ ∀ c ∈ t, IsSpace c = false) →
      TrimSpace cap = Join toks →
      Split (TrimSpace cap) = toks ∧
        ∀ t ∈ Split (TrimSpace cap), t ≠ [] ∧ ' ' ∉ t ∧ '\t' ∉ t) := by
  refine ⟨⟨_, parsePipeline_of_single path pipeName doc m cap h⟩,
    Split_TrimSpace_head cap hcap, ?_, ?_⟩
  · obtain ⟨pre, post, e, -, hm, -, -, -⟩ := single_match_shape doc m cap h
    obtain ⟨-, ws1, ws2, kw, ws3, hs, -, -, hkw, hne, hws3, hcap, hhead, hpost, -⟩ :=
      directiveAt_some hm
    have em : m = ws1 ++ ['/', '/'] ++ ws2 ++ kw ++ ws3 ++ cap :=
      List.append_cancel_right hs
    exact ⟨pre, ws1, ws2, kw, ws3, post, by rw [← em]; exact e, em, hkw, hne, hws3, hcap,
      hhead, hpost⟩
  · intro toks hne htok hj
    have hsp : ∀ t ∈ toks, ' ' ∉ t := fun t ht hmem =>
      absurd IsSpace_space (by rw [(htok t ht).2 ' ' hmem]; simp)
    have htab : ∀ t ∈ toks, '\t' ∉ t := fun t ht hmem =>
      absurd IsSpace_tab (by rw [(htok t ht).2 '\t' hmem]; simp)
    have e : Split (TrimSpace cap) = toks := by
      rw [hj]
      exact List.splitOn_intercalate toks ' ' hsp hne
    rw [e]
    exact ⟨rfl, fun t ht => ⟨(htok t ht).1, hsp t ht, htab t ht⟩⟩

theorem matchers_of_single_match_witness :
    Split (TrimSpace "team=infra env=prod \r".toList)
        = ["team=infra".toList, "env=prod".toList] ∧
      ∀ t ∈ Split (TrimSpace "team=infra env=prod \r".toList),
        t ≠ [] ∧ ' ' ∉ t ∧ '\t' ∉ t :=
  (matchers_of_single_match "d/alerts.alloy".toList "alerts".toList
    "a = 1\n  //matchers team=infra env=prod \r\n<body>".toList
    "  //matchers team=infra env=prod \r".toList "team=infra env=prod \r".toList
    (by decide) (by decide)).2.2.2 ["team=infra".toList, "env=prod".toList] (by simp)
    (by decide) (by decide)

/-! ## `writePipelineToFile` followed by extraction -/

theorem Join_singleton (t : Text) : Join [t] = t := by
  simp [Join, List.intercalate]

theorem Join_cons_cons (t u : Text) (us : List Text) :
    Join (t :: u :: us) = t ++ ' ' :: Join (u :: us) := by
  simp [Join, List.intercalate]

theorem reSpace_imp_IsSpace (c : Char) (h : reSpace c = true) : IsSpace c = true := by
  simp only [reSpace, Bool.or_eq_true, beq_iff_eq] at h
  rcases h with (((h | h) | h) | h) | h <;> subst h <;> decide

theorem IsSpace_newline : IsSpace '\n' = true := by decide

/-- What the joined tokens look like at both ends and inside. -/
theorem Join_tokens (t : Text) (ts : List Text)
    (htok : ∀ u ∈ t :: ts, u ≠ [] ∧ ∀ c ∈ u, IsSpace c = false) :
    (∃ c rest, Join (t :: ts) = c :: rest ∧ IsSpace c = false) ∧
    (∃ init l, Join (t :: ts) = init ++ [l] ∧ IsSpace l = false) ∧
    ∀ c ∈ Join (t :: ts), c ≠ '\n' := by
  induction ts generalizing t with
  | nil =>
    rw [Join_singleton]
    obtain ⟨hne, hc⟩ := htok t (List.mem_cons_self _ _)
    refine ⟨?_, ?_, ?_⟩
    · cases t with
      | nil => exact absurd rfl hne
      | cons c rest => exact ⟨c, rest, rfl, hc c (List.mem_cons_self _ _)⟩
    · rcases List.eq_nil_or_concat t with rfl | ⟨init, l, rfl⟩
      · exact absurd rfl hne
      · rw [List.concat_eq_append]
        exact ⟨init, l, rfl, hc l (by simp)⟩
    · intro c hmem e
      rw [e] at hmem
      exact absurd IsSpace_newline (by rw [hc _ hmem]; simp)
  | cons u us ih =>
    rw [Join_cons_cons]
    obtain ⟨hne, hc⟩ := htok t (List.mem_cons_self _ _)
    obtain ⟨-, ⟨init, l, e, hl⟩, hin⟩ := ih u (fun v hv => htok v (List.mem_cons_of_mem _ hv))
    refine ⟨?_, ?_, ?_⟩
    · cases t with
      | nil => exact absurd rfl hne
      | cons c rest => exact ⟨c, _, rfl, hc c (List.mem_cons_self _ _)⟩
    · exact ⟨t ++ ' ' :: init, l, by rw [e]; simp, hl⟩
    · intro c hmem
      rcases List.mem_append.1 hmem with h1 | h1
      · intro e
        rw [e] at h1
        exact absurd IsSpace_newline (by rw [hc _ h1]; simp)
      · rcases List.mem_cons.1 h1 with h2 | h2
        · rw [h2]
          decide
        · exact hin c h2

theorem matchAt_newline_eq_none (s : Text) :
    matchAt matchersRegex (some '\n') s = matchAt matchersRegex none s := by
  rw [matchAt_matchersRegex, matchAt_matchersRegex]
  simp [directiveAt]

theorem matchAt_not_bol (c : Char) (hc : c ≠ '\n') (s : Text) :
    matchAt matchersRegex (some c) s = none := by
  rw [matchAt_matchersRegex]
  simp [directiveAt, hc]

theorem findAllFrom_newline (s : Text) :
    findAllFrom matchersRegex (some '\n') s 0 = findAllFrom matchersRegex none s 0 := by
  cases s with
  | nil => rfl
  | cons c cs => simp only [findAllFrom, matchAt_newline_eq_none]

theorem replaceAllFrom_newline (s : Text) :
    replaceAllFrom matchersRegex (some '\n') s 0 = replaceAllFrom matchersRegex none s 0 := by
  cases s with
  | nil => rfl
  | cons c cs => simp only [replaceAllFrom, matchAt_newline_eq_none]

/-- The directive line that `writePipelineToFile` writes is matched as a
whole, with the joined tokens as group 1. -/
theorem directiveAt_written (j b : Text) (c : Char) (rest : Text) (hj : j = c :: rest)
    (hc : IsSpace c = false) (hnl : ∀ x ∈ j, x ≠ '\n') :
    directiveAt none ("// matchers:".toList ++ ' ' :: (j ++ '\n' :: b)) = some (j, '\n' :: b) := by
  have hcs : reSpace c = false := by
    cases h : reSpace c with
    | false => rfl
    | true => rw [reSpace_imp_IsSpace c h] at hc; exact absurd hc (by simp)
  have hdot : ∀ x ∈ j, reDot x = true := fun x hx => by simpa [reDot] using hnl x hx
  have h1 : List.dropWhile reSpace (j ++ '\n' :: b) = j ++ '\n' :: b := by
    rw [hj, List.cons_append, List.dropWhile_cons_of_neg (by simp [hcs])]
  have h2 : List.takeWhile reDot (j ++ '\n' :: b) = j := by
    rw [List.takeWhile_append_of_pos hdot]
    simp [List.takeWhile_cons, reDot]
  have h3 : List.dropWhile reDot (j ++ '\n' :: b) = '\n' :: b := by
    rw [List.dropWhile_append_of_pos hdot]
    simp [List.dropWhile_cons, reDot]
  have e : directiveAt none ("// matchers:".toList ++ ' ' :: (j ++ '\n' :: b))
      = some ((List.dropWhile reSpace (j ++ '\n' :: b)).takeWhile reDot,
          (List.dropWhile reSpace (j ++ '\n' :: b)).dropWhile reDot) := by
    rfl
  rw [e, h1, h2, h3]

/-- The scan of a written document whose body holds no match: one match,
the directive line, and the body left as it is after the kept line feed. -/
theorem scan_written (t : Text) (ts : List Text) (b : Text)
    (htok : ∀ u ∈ t :: ts, u ≠ [] ∧ ∀ c ∈ u, IsSpace c = false)
    (hb : FindAllStringSubmatch matchersRegex b = []) :
    FindAllStringSubmatch matchersRegex (Join ("// matchers:".toList :: t :: ts) ++ '\n' :: b)
        = [("// matchers:".toList ++ ' ' :: Join (t :: ts), Join (t :: ts))] ∧
      ReplaceAllString matchersRegex (Join ("// matchers:".toList :: t :: ts) ++ '\n' :: b)
        = '\n' :: b := by
  obtain ⟨⟨c, rest, hj, hc⟩, ⟨init, l, hl, hls⟩, hnl⟩ := Join_tokens t ts htok
  have hd := directiveAt_written (Join (t :: ts)) b c rest hj hc hnl
  rw [← matchAt_matchersRegex] at hd
  have edoc : Join ("// matchers:".toList :: t :: ts) ++ '\n' :: b
      = ("// matchers:".toList ++ ' ' :: Join (t :: ts)) ++ '\n' :: b := by
    rw [Join_cons_cons]
  have hd2 : matchAt matchersRegex none
      (("// matchers:".toList ++ ' ' :: Join (t :: ts)) ++ '\n' :: b)
      = some (Join (t :: ts), '\n' :: b) := by
    rw [← hd]
    congr 1
  have hne : "// matchers:".toList ++ ' ' :: Join (t :: ts) ≠ [] := by simp
  have hprev : prevAfter none ("// matchers:".toList ++ ' ' :: Join (t :: ts)) = some l := by
    have : "// matchers:".toList ++ ' ' :: Join (t :: ts)
        = ("// matchers:".toList ++ ' ' :: init) ++ [l] := by rw [hl]; simp
    rw [this]
    have e : (("// matchers:".toList ++ ' ' :: init) ++ [l]).getLast? = some l :=
      List.getLast?_append_of_ne_nil _ (by simp)
    simp only [prevAfter, e]
  have hlnl : l ≠ '\n' := fun e => by
    rw [e] at hls
    exact absurd IsSpace_newline (by rw [hls]; simp)
  have hno := matchAt_not_bol l hlnl ('\n' :: b)
  constructor
  · unfold FindAllStringSubmatch at hb ⊢
    rw [edoc, findAllFrom_match matchersRegex hd2 hne, hprev, findAllFrom_none matchersRegex hno,
      findAllFrom_newline, hb]
  · unfold ReplaceAllString
    have hrb : replaceAllFrom matchersRegex none b 0 = b :=
      replaceAllFrom_of_findAllFrom_nil _ _ _ hb
    rw [edoc, replaceAllFrom_match matchersRegex hd2 hne, hprev,
      replaceAllFrom_none matchersRegex hno, replaceAllFrom_newline, hrb]

theorem TrimSpace_Join (t : Text) (ts : List Text)
    (htok : ∀ u ∈ t :: ts, u ≠ [] ∧ ∀ c ∈ u, IsSpace c = false) :
    TrimSpace (Join (t :: ts)) = Join (t :: ts) := by
  obtain ⟨⟨c, rest, hj, hc⟩, ⟨init, l, hl, hls⟩, -⟩ := Join_tokens t ts htok
  unfold TrimSpace
  have h1 : List.dropWhile IsSpace (Join (t :: ts)) = Join (t :: ts) := by
    rw [hj, List.dropWhile_cons_of_neg (by simp [hc])]
  rw [h1, hl]
  exact List.rdropWhile_concat_neg _ _ _ (by simp [hls])

/-- What the loader makes of the text that `writePipelineToFile` writes, for
matchers that are non-empty tokens free of white space and a body in which
the pattern has no match: the matchers come back as written; the contents
come back as written when there are no matchers, and otherwise with the line
feed in front that the writer put behind the directive line. -/
theorem written_then_extracted (path pipeName name : Text) (m : List Text) (b : Text)
    (htok : ∀ t ∈ m, t ≠ [] ∧ ∀ c ∈ t, IsSpace c = false)
    (hb : FindAllStringSubmatch matchersRegex b = []) :
    parsePipeline path pipeName (writePipelineToFile ⟨m, b, name⟩)
      = .ok ⟨m, if m = [] then b else '\n' :: b, pipeName⟩ := by
  cases m with
  | nil =>
    simp only [writePipelineToFile, List.length_nil, gt_iff_lt, lt_self_iff_false, if_false,
      if_true]
    exact parsePipeline_of_no_match path pipeName b hb
  | cons t ts =>
    obtain ⟨hf, hr⟩ := scan_written t ts b htok hb
    have hsp : ∀ u ∈ t :: ts, ' ' ∉ u := fun u hu hmem =>
      absurd IsSpace_space (by rw [(htok u hu).2 ' ' hmem]; simp)
    have hsplit : Split (TrimSpace (Join (t :: ts))) = t :: ts := by
      rw [TrimSpace_Join t ts htok]
      exact List.splitOn_intercalate (t :: ts) ' ' hsp (by simp)
    have hw : writePipelineToFile ⟨t :: ts, b, name⟩
        = Join ("// matchers:".toList :: t :: ts) ++ '\n' :: b := by
      simp [writePipelineToFile]
    rw [hw, parsePipeline_of_single _ _ _ _ _ hf, hr, hsplit]
    simp

/-! ## The reconciliation loops -/

theorem mem_foldl_set (ps : List Pipeline) (acc : NameSet) (n : Text) :
    n ∈ ps.foldl (fun m p => m.set p.Name) acc ↔ n ∈ acc ∨ n ∈ ps.map (·.Name) := by
  induction ps generalizing acc with
  | nil => simp
  | cons p ps ih =>
    rw [List.foldl_cons, ih]
    by_cases h : p.Name ∈ acc
    · simp only [NameSet.set, if_pos h, List.map_cons, List.mem_cons]
      constructor
      · rintro (h1 | h1)
        · exact Or.inl h1
        · exact Or.inr (Or.inr h1)
      · rintro (h1 | h1 | h1)
        · exact Or.inl h1
        · exact Or.inl (h1 ▸ h)
        · exact Or.inr h1
    · simp only [NameSet.set, if_neg h, List.map_cons, List.mem_cons, List.mem_append,
        List.mem_singleton]
      tauto

theorem nodup_foldl_set (ps : List Pipeline) (acc : NameSet) (h : acc.Nodup) :
    (ps.foldl (fun m p => m.set p.Name) acc).Nodup := by
  induction ps generalizing acc with
  | nil => exact h
  | cons p ps ih =>
    rw [List.foldl_cons]
    apply ih
    by_cases hp : p.Name ∈ acc
    · simpa [NameSet.set, hp] using h
    · simp only [NameSet.set, if_neg hp]
      exact List.Nodup.append h (List.nodup_singleton _) (by simpa using hp)

/-- The keys of the map built by lines 85-90 are the names of the slice. -/
theorem mem_namesOf (ps : List Pipeline) (n : Text) :
    n ∈ namesOf ps ↔ n ∈ ps.map (·.Name) := by
  simp [namesOf, mem_foldl_set]

theorem nodup_namesOf (ps : List Pipeline) : (namesOf ps).Nodup :=
  nodup_foldl_set ps [] List.nodup_nil

theorem get_namesOf (ps : List Pipeline) (n : Text) :
    (namesOf ps).get n = decide (n ∈ ps.map (·.Name)) := by
  simp only [NameSet.get, mem_namesOf]

/-- The loop of lines 91-117 appends one attempt for each pipeline, in
order, whatever fails. -/
theorem upsertLoop_eq (fails : Nat → Bool) (remote pipes : List Pipeline) (done : List Attempt) :
    ∃ ext, upsertLoop fails (namesOf remote) pipes done = done ++ ext ∧
      ext.map (·.call) = pipes.map (upsertCall (remote.map (·.Name))) := by
  induction pipes generalizing done with
  | nil => exact ⟨[], by simp [upsertLoop]⟩
  | cons p ps ih =>
    obtain ⟨ext, h1, h2⟩ := ih (done ++
      [⟨if (namesOf remote).get p.Name then Call.update p else Call.create p,
        fails done.length⟩])
    refine ⟨⟨if (namesOf remote).get p.Name then Call.update p else Call.create p,
        fails done.length⟩ :: ext, ?_, ?_⟩
    · simp only [upsertLoop]
      rw [h1]
      simp
    · rw [List.map_cons, List.map_cons, h2]
      congr 1
      simp only [upsertCall, get_namesOf]
      by_cases hp : p.Name ∈ remote.map (·.Name) <;> simp [hp]

/-- The purge loop only appends delete calls. -/
theorem purgeLoop_eq (fails : Nat → Bool) (localNames : NameSet) (names : List Text)
    (done : List Attempt) :
    ∃ ext, (purgeLoop fails localNames names done).1 = done ++ ext ∧
      ∀ a ∈ ext, ∃ n, a.call = Call.delete n := by
  induction names generalizing done with
  | nil => exact ⟨[], by simp [purgeLoop]⟩
  | cons name names ih =>
    by_cases hl : localNames.get name = true
    · obtain ⟨ext, h1, h2⟩ := ih done
      exact ⟨ext, by simp [purgeLoop, hl, h1], h2⟩
    · by_cases hf : fails done.length = true
      · exact ⟨[⟨Call.delete name, true⟩], by simp [purgeLoop, hl, hf], by simp⟩
      · obtain ⟨ext, h1, h2⟩ := ih (done ++ [⟨Call.delete name, false⟩])
        refine ⟨⟨Call.delete name, false⟩ :: ext, by simp [purgeLoop, hl, hf, h1], ?_⟩
        intro a ha
        rcases List.mem_cons.1 ha with rfl | ha
        · exact ⟨name, rfl⟩
        · exact h2 a ha

/-- A run: the attempts of the first loop, then those of the purge loop. -/
theorem reconcile_eq (fails : Nat → Bool) (range : List Text → List Text) (flagPurge : Bool)
    (pipes remote : List Pipeline) :
    ∃ ups dels, (reconcile fails range flagPurge pipes remote).1 = ups ++ dels ∧
      ups.map (·.call) = pipes.map (upsertCall (remote.map (·.Name))) ∧
      (∀ a ∈ dels, ∃ n, a.call = Call.delete n) ∧
      (flagPurge = false → dels = []) := by
  obtain ⟨ups, h1, h2⟩ := upsertLoop_eq fails remote pipes []
  rw [List.nil_append] at h1
  cases flagPurge with
  | false => exact ⟨ups, [], by simp [reconcile, h1], h2, by simp, fun _ => rfl⟩
  | true =>
    obtain ⟨dels, h3, h4⟩ := purgeLoop_eq fails (namesOf pipes) (range (namesOf remote)) ups
    exact ⟨ups, dels, by simp [reconcile, h1, h3], h2, h4, by simp⟩

theorem upsertCall_carried (rn : List Text) (p : Pipeline) :
    (upsertCall rn p).carried = some p := by
  unfold upsertCall
  split <;> rfl

theorem upsertCall_deleted (rn : List Text) (p : Pipeline) :
    (upsertCall rn p).deleted = none := by
  unfold upsertCall
  split <;> rfl

/-- The first loop's attempts come first, one for each local pipeline in
order; what follows are deletes. -/
theorem reconcile_upserts_then_deletes (fails : Nat → Bool) (range : List Text → List Text)
    (flagPurge : Bool) (pipes remote : List Pipeline) :
    (((reconcile fails range flagPurge pipes remote).1.take pipes.length).map (·.call)
        = pipes.map fun p =>
            if p.Name ∈ remote.map (·.Name) then Call.update p else Call.create p) ∧
      ∀ a ∈ (reconcile fails range flagPurge pipes remote).1.drop pipes.length,
        ∃ n, a.call = Call.delete n := by
  obtain ⟨ups, dels, h1, h2, h3, -⟩ := reconcile_eq fails range flagPurge pipes remote
  have hlen : ups.length = pipes.length := by
    have := congrArg List.length h2
    simpa using this
  rw [h1, ← hlen, List.take_left, List.drop_left]
  exact ⟨h2, h3⟩

/-- C3: for every local sequence, remote collection, purge flag, map order
and whichever calls fail, the run starts with exactly one create-or-update
attempt for each local pipeline, in the given order: `update p` when the
name of `p` is a remote name and `create p` otherwise; every attempt after
these is a delete. So no failure keeps a later pipeline from its attempt. -/
theorem one_upsert_per_local_pipeline (fails : Nat → Bool) (range : List Text → List Text)
    (flagPurge : Bool) (pipes remote : List Pipeline) :
    (((reconcile fails range flagPurge pipes remote).1.take pipes.length).map (·.call)
        = pipes.map fun p =>
            if p.Name ∈ remote.map (·.Name) then Call.update p else Call.create p) ∧
      ∀ a ∈ (reconcile fails range flagPurge pipes remote).1.drop pipes.length,
        ∃ n, a.call = Call.delete n :=
  reconcile_upserts_then_deletes fails range flagPurge pipes remote

theorem upserted_append (a b : List Attempt) : upserted (a ++ b) = upserted a ++ upserted b := by
  simp [upserted, List.filterMap_append]

theorem deletedNames_append (a b : List Attempt) :
    deletedNames (a ++ b) = deletedNames a ++ deletedNames b := by
  simp [deletedNames, List.filterMap_append]

theorem upserted_of_calls (rn : List Text) (pipes : List Pipeline) (ups : List Attempt)
    (h : ups.map (·.call) = pipes.map (upsertCall rn)) : upserted ups = pipes := by
  induction pipes generalizing ups with
  | nil =>
    have : ups = [] := by simpa using h
    rw [this]
    rfl
  | cons p ps ih =>
    cases ups with
    | nil => simp at h
    | cons a as =>
      simp only [List.map_cons, List.cons.injEq] at h
      have := ih as h.2
      simp only [upserted, List.filterMap_cons, h.1, upsertCall_carried] at this ⊢
      rw [this]

theorem deletedNames_of_calls (rn : List Text) (pipes : List Pipeline) (ups : List Attempt)
    (h : ups.map (·.call) = pipes.map (upsertCall rn)) : deletedNames ups = [] := by
  induction pipes generalizing ups with
  | nil =>
    have : ups = [] := by simpa using h
    rw [this]
    rfl
  | cons p ps ih =>
    cases ups with
    | nil => simp at h
    | cons a as =>
      simp only [List.map_cons, List.cons.injEq] at h
      have := ih as h.2
      simp only [deletedNames, List.filterMap_cons, h.1, upsertCall_deleted] at this ⊢
      exact this

theorem upserted_of_deletes (dels : List Attempt) (h : ∀ a ∈ dels, ∃ n, a.call = Call.delete n) :
    upserted dels = [] := by
  induction dels with
  | nil => rfl
  | cons a as ih =>
    obtain ⟨n, hn⟩ := h a (List.mem_cons_self _ _)
    have := ih (fun b hb => h b (List.mem_cons_of_mem _ hb))
    simp only [upserted, List.filterMap_cons, hn, Call.carried] at this ⊢
    exact this

/-- The pipelines carried by the create and update calls of a run are the
local pipelines, one call each, in order. -/
theorem upserted_reconcile (fails : Nat → Bool) (range : List Text → List Text)
    (flagPurge : Bool) (pipes remote : List Pipeline) :
    upserted (reconcile fails range flagPurge pipes remote).1 = pipes := by
  obtain ⟨ups, dels, h1, h2, h3, -⟩ := reconcile_eq fails range flagPurge pipes remote
  rw [h1, upserted_append, upserted_of_calls _ _ _ h2, upserted_of_deletes _ h3,
    List.append_nil]

/-- C10 (amended): when two or more loaded documents share a name nothing
collapses: for every name, the create-or-update calls of a run that carry a
pipeline of that name are as many as the loaded documents of that name, in
load order, and each carries the matchers and contents of its own document.
The set of local names only decides what the purge deletes. -/
theorem one_upsert_per_loaded_document (fails : Nat → Bool) (range : List Text → List Text)
    (flagPurge : Bool) (pipes remote : List Pipeline) (n : Text) :
    (upserted (reconcile fails range flagPurge pipes remote).1).filter (fun p => p.Name = n)
      = pipes.filter (fun p => p.Name = n) := by
  rw [upserted_reconcile]

/-- When no call fails, the purge loop deletes the keys that are not local
names, in the order of the range. -/
theorem purgeLoop_no_failure (localNames : NameSet) (names : List Text) (done : List Attempt) :
    purgeLoop (fun _ => false) localNames names done
      = (done ++ (names.filter fun n => !localNames.get n).map fun n => ⟨Call.delete n, false⟩,
          false) := by
  induction names generalizing done with
  | nil => simp [purgeLoop]
  | cons name names ih =>
    by_cases hl : localNames.get name = true
    · simp [purgeLoop, hl, ih]
    · simp [purgeLoop, hl, ih]

theorem deletedNames_map_delete (l : List Text) :
    deletedNames (l.map fun n => ⟨Call.delete n, false⟩) = l := by
  induction l with
  | nil => rfl
  | cons n l ih =>
    simp only [deletedNames, List.map_cons, List.filterMap_cons, Call.deleted] at ih ⊢
    rw [ih]

/-- C4: when every store call succeeds the run is not cut short, and
`delete n` is issued if and only if purge is on and `n` is a remote name that
is no local name; no name is deleted twice; so with purge off nothing is
deleted and a name with a local pipeline is never deleted. Every delete
comes after all create and update attempts: the first `pipes.length` attempts
hold no delete and the later ones are all deletes. The order in which the
runtime ranges over the map keys may be any. -/
theorem purge_deletes_exactly_the_remote_only_names (range : List Text → List Text)
    (hrange : ∀ l, (range l).Perm l) (flagPurge : Bool) (pipes remote : List Pipeline) :
    (reconcile (fun _ => false) range flagPurge pipes remote).2 = false ∧
    (∀ n, n ∈ deletedNames (reconcile (fun _ => false) range flagPurge pipes remote).1
        ↔ flagPurge = true ∧ n ∈ remote.map (·.Name) ∧ n ∉ pipes.map (·.Name)) ∧
    (deletedNames (reconcile (fun _ => false) range flagPurge pipes remote).1).Nodup ∧
    (∀ a ∈ (reconcile (fun _ => false) range flagPurge pipes remote).1.take pipes.length,
        a.call.deleted = none) ∧
    (∀ a ∈ (reconcile (fun _ => false) range flagPurge pipes remote).1.drop pipes.length,
        ∃ n, a.call = Call.delete n) := by
  obtain ⟨hup, hdel⟩ :=
    reconcile_upserts_then_deletes (fun _ => false) range flagPurge pipes remote
  obtain ⟨ups, h1, h2⟩ := upsertLoop_eq (fun _ => false) remote pipes []
  rw [List.nil_append] at h1
  have hd0 : deletedNames ups = [] := deletedNames_of_calls _ _ _ h2
  refine ⟨?_, ?_, ?_, ?_, hdel⟩
  · cases flagPurge with
    | false => simp [reconcile]
    | true => simp [reconcile, purgeLoop_no_failure]
  · intro n
    cases flagPurge with
    | false => simp [reconcile, h1, hd0]
    | true =>
      simp only [reconcile, h1, if_true, purgeLoop_no_failure, deletedNames_append, hd0,
        List.nil_append, deletedNames_map_delete, true_and, List.mem_filter,
        (hrange _).mem_iff, mem_namesOf, get_namesOf]
      simp
  · cases flagPurge with
    | false =>
      simp only [reconcile, h1, Bool.false_eq_true, if_false, hd0]
      exact List.nodup_nil
    | true =>
      simp only [reconcile, h1, if_true, purgeLoop_no_failure, deletedNames_append, hd0,
        List.nil_append, deletedNames_map_delete]
      exact ((hrange _).nodup_iff.2 (nodup_namesOf remote)).filter _
  · intro a ha
    have hm : a.call ∈ pipes.map fun p =>
        if p.Name ∈ remote.map (·.Name) then Call.update p else Call.create p := by
      rw [← hup]
      exact List.mem_map_of_mem _ ha
    obtain ⟨p, -, hp⟩ := List.mem_map.1 hm
    rw [← hp]
    split <;> rfl

theorem purge_deletes_exactly_the_remote_only_names_witness :
    (reconcile (fun _ => false) List.reverse true
        [⟨[], "a".toList, "A".toList⟩, ⟨[], "b".toList, "B".toList⟩]
        [⟨[], "b0".toList, "B".toList⟩, ⟨[], "c0".toList, "C".toList⟩]).1.map (·.call)
      = [Call.create ⟨[], "a".toList, "A".toList⟩, Call.update ⟨[], "b".toList, "B".toList⟩,
          Call.delete "C".toList] ∧
    (∀ n, n ∈ deletedNames (reconcile (fun _ => false) List.reverse true
          [⟨[], "a".toList, "A".toList⟩, ⟨[], "b".toList, "B".toList⟩]
          [⟨[], "b0".toList, "B".toList⟩, ⟨[], "c0".toList, "C".toList⟩]).1
        ↔ true = true ∧
          n ∈ List.map (fun p : Pipeline => p.Name)
            [⟨[], "b0".toList, "B".toList⟩, ⟨[], "c0".toList, "C".toList⟩] ∧
          n ∉ List.map (fun p : Pipeline => p.Name)
            [⟨[], "a".toList, "A".toList⟩, ⟨[], "b".toList, "B".toList⟩]) :=
  ⟨by decide,
    (purge_deletes_exactly_the_remote_only_names List.reverse
      (fun l => List.reverse_perm l) true
      [⟨[], "a".toList, "A".toList⟩, ⟨[], "b".toList, "B".toList⟩]
      [⟨[], "b0".toList, "B".toList⟩, ⟨[], "c0".toList, "C".toList⟩]).2.1⟩

/-- In the purge loop a failed delete is the last attempt, and the run is
cut short there. -/
theorem purgeLoop_failed_last (fails : Nat → Bool) (localNames : NameSet) (names : List Text)
    (done : List Attempt) (hdone : ∀ a ∈ done, a.call.deleted = none ∨ a.failed = false)
    (i : Nat) (n : Text)
    (h : (purgeLoop fails localNames names done).1[i]? = some ⟨Call.delete n, true⟩) :
    i + 1 = (purgeLoop fails localNames names done).1.length ∧
      (purgeLoop fails localNames names done).2 = true := by
  induction names generalizing done with
  | nil =>
    simp only [purgeLoop] at h
    have hm := List.getElem?_mem h
    rcases hdone _ hm with h1 | h1 <;> simp [Call.deleted] at h1
  | cons name names ih =>
    by_cases hl : localNames.get name = true
    · simp only [purgeLoop, hl, Bool.not_true, Bool.false_eq_true, if_false] at h ⊢
      exact ih done hdone h
    · by_cases hf : fails done.length = true
      · simp only [purgeLoop, hl, hf, Bool.not_false, if_true] at h ⊢
        rcases Nat.lt_or_ge i done.length with hi | hi
        · rw [List.getElem?_append_left hi] at h
          have hm := List.getElem?_mem h
          rcases hdone _ hm with h1 | h1 <;> simp [Call.deleted] at h1
        · have hi2 : i < (done ++ [(⟨Call.delete name, true⟩ : Attempt)]).length := by
            by_contra hc
            rw [List.getElem?_eq_none (by omega)] at h
            exact absurd h (by simp)
          simp only [List.length_append, List.length_singleton] at hi2 ⊢
          exact ⟨by omega, trivial⟩
      · simp only [purgeLoop, hl, hf, Bool.not_false, if_true, Bool.false_eq_true,
          if_false] at h ⊢
        refine ih (done ++ [⟨Call.delete name, false⟩]) ?_ h
        intro a ha
        rcases List.mem_append.1 ha with h1 | h1
        · exact hdone a h1
        · right
          rw [List.mem_singleton.1 h1]

/-- C5: in every run, whatever fails, a delete call that failed is the last
attempt of the run and the run ends there (`log.Fatal`): after the first
failing delete no further delete (nor anything else) is attempted. -/
theorem failed_delete_ends_the_run (fails : Nat → Bool) (range : List Text → List Text)
    (flagPurge : Bool) (pipes remote : List Pipeline) (i : Nat) (n : Text)
    (h : (reconcile fails range flagPurge pipes remote).1[i]? = some ⟨Call.delete n, true⟩) :
    i + 1 = (reconcile fails range flagPurge pipes remote).1.length ∧
      (reconcile fails range flagPurge pipes remote).2 = true := by
  obtain ⟨ups, h1, h2⟩ := upsertLoop_eq fails remote pipes []
  rw [List.nil_append] at h1
  have hups : ∀ a ∈ ups, a.call.deleted = none ∨ a.failed = false := by
    intro a ha
    left
    have hm : a.call ∈ pipes.map (upsertCall (remote.map (·.Name))) := by
      rw [← h2]
      exact List.mem_map_of_mem _ ha
    obtain ⟨p, -, hp⟩ := List.mem_map.1 hm
    rw [← hp]
    exact upsertCall_deleted _ _
  cases flagPurge with
  | false =>
    simp only [reconcile, h1, Bool.false_eq_true, if_false] at h
    have hm := List.getElem?_mem h
    rcases hups _ hm with h3 | h3 <;> simp [Call.deleted] at h3
  | true =>
    simp only [reconcile, h1, if_true] at h ⊢
    exact purgeLoop_failed_last fails _ _ ups hups i n h

theorem failed_delete_ends_the_run_witness :
    (reconcile (fun i => decide (i = 1)) id true [⟨[], "a".toList, "A".toList⟩]
        [⟨[], "c".toList, "C".toList⟩, ⟨[], "d".toList, "D".toList⟩]).1
      = [⟨Call.create ⟨[], "a".toList, "A".toList⟩, false⟩, ⟨Call.delete "C".toList, true⟩] ∧
    (1 + 1 = (reconcile (fun i => decide (i = 1)) id true [⟨[], "a".toList, "A".toList⟩]
        [⟨[], "c".toList, "C".toList⟩, ⟨[], "d".toList, "D".toList⟩]).1.length ∧
      (reconcile (fun i => decide (i = 1)) id true [⟨[], "a".toList, "A".toList⟩]
        [⟨[], "c".toList, "C".toList⟩, ⟨[], "d".toList, "D".toList⟩]).2 = true) :=
  ⟨by decide,
    failed_delete_ends_the_run (fun i => decide (i = 1)) id true [⟨[], "a".toList, "A".toList⟩]
      [⟨[], "c".toList, "C".toList⟩, ⟨[], "d".toList, "D".toList⟩] 1 "C".toList (by decide)⟩

/-! ## The loader -/

/-- The callback on a candidate file whose content holds two or more
matches: the error of line 175. -/
theorem walkFn_of_many (pipes : List Pipeline) (a : WalkArgs) (content : Text)
    (hinfo : a.info = some ⟨false⟩) (herr : a.err = none)
    (hext : Ext a.path = ".alloy".toList ∨ Ext a.path = ".river".toList)
    (hread : a.readFile = .ok content)
    (h : 1 < (FindAllStringSubmatch matchersRegex content).length) :
    walkFn pipes a
      = some (some (a.path ++ ": Only one matchers comment allowed".toList), pipes) := by
  have hne : ¬(Ext a.path ≠ ".alloy".toList ∧ Ext a.path ≠ ".river".toList) := by
    rcases hext with h1 | h1 <;> simp [h1]
  simp only [walkFn, hinfo, herr, hread, if_neg hne, parsePipeline_of_many _ _ _ h]
  simp

/-- A walk that holds a candidate file with two or more matches of the
pattern never yields pipelines: the load ends in an error (or in a crash at
an earlier entry). -/
theorem load_not_ok_of_many (walk : List WalkArgs) (a : WalkArgs) (content : Text)
    (ha : a ∈ walk) (hinfo : a.info = some ⟨false⟩) (herr : a.err = none)
    (hext : Ext a.path = ".alloy".toList ∨ Ext a.path = ".river".toList)
    (hread : a.readFile = .ok content)
    (h : 1 < (FindAllStringSubmatch matchersRegex content).length) (ps : List Pipeline) :
    loadPipelinesFromFiles walk ≠ .ok ps := by
  unfold loadPipelinesFromFiles
  generalize ([] : List Pipeline) = pipes
  induction walk generalizing pipes with
  | nil => simp at ha
  | cons b rest ih =>
    rcases List.mem_cons.1 ha with rfl | hmem
    · simp [walkFrom, walkFn_of_many pipes a content hinfo herr hext hread h]
    · simp only [walkFrom]
      cases hb : walkFn pipes b with
      | none => simp
      | some r =>
        obtain ⟨e, pipes1⟩ := r
        cases e with
        | none => exact ih hmem pipes1
        | some e => simp

/-- The callback never returns an error that Walk passes to it: Walk passes
an error either with a nil `info`, where `info.IsDir()` crashes, or with the
info of a directory, where line 159 returns nil before line 161 is reached. -/
theorem walkFn_drops_walk_error (pipes : List Pipeline) (a : WalkArgs)
    (hinfo : a.info = none ∨ a.info = some ⟨true⟩) :
    walkFn pipes a = none ∨ walkFn pipes a = some (none, pipes) := by
  rcases hinfo with h | h
  · left
    simp [walkFn, h]
  · right
    simp [walkFn, h]

/-- The callback on a candidate file that cannot be read: the error of
`os.ReadFile`. -/
theorem walkFn_of_read_error (pipes : List Pipeline) (a : WalkArgs) (e : GoError)
    (hinfo : a.info = some ⟨false⟩) (herr : a.err = none)
    (hext : Ext a.path = ".alloy".toList ∨ Ext a.path = ".river".toList)
    (hread : a.readFile = .error e) :
    walkFn pipes a = some (some e, pipes) := by
  have hne : ¬(Ext a.path ≠ ".alloy".toList ∧ Ext a.path ≠ ".river".toList) := by
    rcases hext with h1 | h1 <;> simp [h1]
  simp only [walkFn, hinfo, herr, hread, if_neg hne]
  simp

/-! ## Directive lines that hold a token

Away from directives without a token the pattern behaves line by line: a
directive line with a token is matched up to its own end, whatever stands
before it, so two such lines always give two matches. -/

theorem dropWhile_append_of_ne_nil (p : Char → Bool) (a b : Text) (h : a.dropWhile p ≠ []) :
    (a ++ b).dropWhile p = a.dropWhile p ++ b := by
  rw [List.dropWhile_append]
  cases hd : a.dropWhile p with
  | nil => exact absurd hd h
  | cons x xs => simp

theorem dropLits_append (lits a x b : Text) (h : dropLits lits a = some x) :
    dropLits lits (a ++ b) = some (x ++ b) := by
  induction lits generalizing a with
  | nil =>
    simp only [dropLits, Option.some.injEq] at h
    simp [dropLits, h]
  | cons c cs ih =>
    cases a with
    | nil => simp [dropLits] at h
    | cons d ds =>
      by_cases hd : d = c
      · simp only [dropLits, hd, if_true] at h
        simp only [List.cons_append, dropLits, hd, if_true]
        exact ih ds h
      · simp [dropLits, hd] at h

theorem dropOpt_append (c : Char) (a b : Text) (h : a ≠ []) :
    dropOpt c (a ++ b) = dropOpt c a ++ b := by
  cases a with
  | nil => exact absurd rfl h
  | cons d ds => by_cases hd : d = c <;> simp [dropOpt, hd]

theorem takeWhile_reDot_line (y post : Text) (hy : ∀ c ∈ y, c ≠ '\n')
    (hpost : post = [] ∨ ∃ tl, post = '\n' :: tl) :
    (y ++ post).takeWhile reDot = y ∧ (y ++ post).dropWhile reDot = post := by
  have hdot : ∀ c ∈ y, reDot c = true := fun c hc => by simpa [reDot] using hy c hc
  rw [List.takeWhile_append_of_pos hdot, List.dropWhile_append_of_pos hdot]
  rcases hpost with rfl | ⟨tl, rfl⟩
  · simp
  · simp [List.takeWhile_cons, List.dropWhile_cons, reDot]

/-- The steps of `directiveAt` on a line that holds a token. -/
theorem isTokenLine_steps (l : Text) (h : isTokenLine l = true) :
    ∃ s1 s2 c cs cap, dropLits ['/', '/'] (l.dropWhile reSpace) = some s1 ∧
      dropLits ['m', 'a', 't', 'c', 'h', 'e', 'r'] (s1.dropWhile reSpace) = some s2 ∧
      dropOpt ':' (dropOpt 's' s2) = c :: cs ∧ reSpace c = true ∧
      cs.dropWhile reSpace = cap ∧ cap ≠ [] ∧ (cs.dropWhile reSpace).dropWhile reDot = [] := by
  unfold isTokenLine at h
  rw [matchAt_matchersRegex] at h
  unfold directiveAt at h
  simp only [true_or, if_true] at h
  cases h1 : dropLits ['/', '/'] (l.dropWhile reSpace) with
  | none => simp [h1] at h
  | some s1 =>
    rw [h1] at h
    simp only [Option.bind] at h
    cases h2 : dropLits ['m', 'a', 't', 'c', 'h', 'e', 'r'] (s1.dropWhile reSpace) with
    | none => simp [h2] at h
    | some s2 =>
      rw [h2] at h
      simp only at h
      cases h3 : dropOpt ':' (dropOpt 's' s2) with
      | nil => simp [h3] at h
      | cons c cs =>
        rw [h3] at h
        by_cases hc : reSpace c = true
        swap
        · simp [hc] at h
        simp only [hc, if_true] at h
        cases hp : (cs.dropWhile reSpace).dropWhile reDot with
        | cons x xs => simp [hp] at h
        | nil =>
          rw [hp] at h
          simp only [Bool.not_eq_true', List.isEmpty_eq_false] at h
          have hy : cs.dropWhile reSpace = (cs.dropWhile reSpace).takeWhile reDot := by
            have := List.takeWhile_append_dropWhile reDot (cs.dropWhile reSpace)
            rw [hp, List.append_nil] at this
            exact this.symm
          refine ⟨s1, s2, c, cs, cs.dropWhile reSpace, rfl, h2, h3, hc, rfl, ?_, hp⟩
          rw [hy]
          intro he
          rw [he] at h
          simp at h

/-- A line that holds a token is matched up to its own end, whatever
follows the line. -/
theorem directiveAt_tokenLine_append (l post : Text) (h : isTokenLine l = true)
    (hpost : post = [] ∨ ∃ tl, post = '\n' :: tl) (prev : Option Char)
    (hb : prev = none ∨ prev = some '\n') :
    ∃ cap, cap ≠ [] ∧ directiveAt prev (l ++ post) = some (cap, post) := by
  obtain ⟨s1, s2, c, cs, cap, h1, h2, h3, hc, h4, hne, h5⟩ := isTokenLine_steps l h
  have hl : l.dropWhile reSpace ≠ [] := by
    intro e
    rw [e] at h1
    simp [dropLits] at h1
  have hs1 : s1.dropWhile reSpace ≠ [] := by
    intro e
    rw [e] at h2
    simp [dropLits] at h2
  have hs2 : s2 ≠ [] := by
    intro e
    rw [e] at h3
    simp [dropOpt] at h3
  have hs3 : dropOpt 's' s2 ≠ [] := by
    intro e
    rw [e] at h3
    simp [dropOpt] at h3
  have hdot : ∀ x ∈ cap, x ≠ '\n' := by
    rw [h4] at h5
    intro x hx
    have := (List.dropWhile_eq_nil_iff.1 h5) x hx
    simpa [reDot] using this
  have hcs : (cs ++ post).dropWhile reSpace = cap ++ post := by
    rw [dropWhile_append_of_ne_nil reSpace cs post (by rw [h4]; exact hne), h4]
  obtain ⟨ht, hd⟩ := takeWhile_reDot_line cap post hdot hpost
  refine ⟨cap, hne, ?_⟩
  unfold directiveAt
  rw [if_pos hb, dropWhile_append_of_ne_nil reSpace l post hl,
    dropLits_append _ _ _ post h1]
  simp only [Option.bind]
  rw [dropWhile_append_of_ne_nil reSpace s1 post hs1, dropLits_append _ _ _ post h2]
  simp only
  rw [dropOpt_append 's' s2 post hs2, dropOpt_append ':' _ post hs3, h3]
  simp only [List.cons_append, hc, if_true, hcs, ht, hd]

/-- A line that holds a token starts, after its white space, with the
comment marker. -/
theorem tokenLine_dropWhile (l post : Text) (h : isTokenLine l = true) :
    ∃ r, (l ++ post).dropWhile reSpace = '/' :: r := by
  obtain ⟨s1, -, -, -, -, h1, -⟩ := isTokenLine_steps l h
  have e := dropLits_some h1
  have hl : l.dropWhile reSpace ≠ [] := by rw [e]; simp
  rw [dropWhile_append_of_ne_nil reSpace l post hl, e]
  exact ⟨_, rfl⟩

theorem dropWhile_barrier (p : Char → Bool) (d L : Text) (hd : EndsLine d) :
    (d ++ L).dropWhile p = L.dropWhile p ∨ ∃ d1, EndsLine d1 ∧ (d ++ L).dropWhile p = d1 ++ L := by
  obtain ⟨e, rfl⟩ := hd
  induction e with
  | nil =>
    by_cases hp : p '\n' = true
    · left
      simp [List.dropWhile_cons, hp]
    · right
      exact ⟨['\n'], ⟨[], rfl⟩, by simp [List.dropWhile_cons, hp]⟩
  | cons c e ih =>
    by_cases hp : p c = true
    · simpa [List.dropWhile_cons, hp] using ih
    · right
      exact ⟨c :: e ++ ['\n'], ⟨c :: e, rfl⟩, by simp [List.dropWhile_cons, hp]⟩

theorem dropWhile_reDot_barrier (d L : Text) (hd : EndsLine d) :
    ∃ d1, EndsLine d1 ∧ (d ++ L).dropWhile reDot = d1 ++ L := by
  obtain ⟨e, rfl⟩ := hd
  induction e with
  | nil => exact ⟨['\n'], ⟨[], rfl⟩, by simp [List.dropWhile_cons, reDot]⟩
  | cons c e ih =>
    by_cases hp : reDot c = true
    · simpa [List.dropWhile_cons, hp] using ih
    · exact ⟨c :: e ++ ['\n'], ⟨c :: e, rfl⟩, by simp [List.dropWhile_cons, hp]⟩

theorem dropLits_barrier (lits d L x : Text) (hd : EndsLine d) (hl : '\n' ∉ lits)
    (h : dropLits lits (d ++ L) = some x) : ∃ d1, EndsLine d1 ∧ x = d1 ++ L := by
  induction lits generalizing d with
  | nil =>
    simp only [dropLits, Option.some.injEq] at h
    exact ⟨d, hd, h.symm⟩
  | cons a as ih =>
    obtain ⟨e, rfl⟩ := hd
    have ha : '\n' ≠ a := fun e1 => hl (by rw [e1]; exact List.mem_cons_self _ _)
    have has : '\n' ∉ as := fun hm => hl (List.mem_cons_of_mem _ hm)
    cases e with
    | nil => simp [dropLits, ha] at h
    | cons c e =>
      by_cases hc : c = a
      · simp only [List.cons_append, dropLits, hc, if_true] at h
        exact ih (e ++ ['\n']) ⟨e, rfl⟩ has (by simpa using h)
      · simp [dropLits, hc] at h

theorem dropOpt_barrier (a : Char) (d L : Text) (hd : EndsLine d) (ha : '\n' ≠ a) :
    ∃ d1, EndsLine d1 ∧ dropOpt a (d ++ L) = d1 ++ L := by
  obtain ⟨e, rfl⟩ := hd
  cases e with
  | nil => exact ⟨['\n'], ⟨[], rfl⟩, by simp [dropOpt, ha]⟩
  | cons c e =>
    by_cases hc : c = a
    · exact ⟨e ++ ['\n'], ⟨e, rfl⟩, by simp [dropOpt, hc]⟩
    · exact ⟨c :: e ++ ['\n'], ⟨c :: e, rfl⟩, by simp [dropOpt, hc]⟩

theorem tokenLine_tail (l post : Text) (hl : ∀ c ∈ l, c ≠ '\n') (h : isTokenLine l = true)
    (hpost : post = [] ∨ ∃ tl, post = '\n' :: tl) :
    ((l ++ post).dropWhile reSpace).dropWhile reDot = post := by
  obtain ⟨s1, -, -, -, -, h1, -⟩ := isTokenLine_steps l h
  have hne : l.dropWhile reSpace ≠ [] := by rw [dropLits_some h1]; simp
  rw [dropWhile_append_of_ne_nil reSpace l post hne]
  have hy : ∀ c ∈ l.dropWhile reSpace, c ≠ '\n' := fun c hc =>
    hl c ((List.dropWhile_sublist reSpace).subset hc)
  exact (takeWhile_reDot_line _ post hy hpost).2

theorem directiveAt_congr (prev : Option Char) (s t : Text)
    (h : s.dropWhile reSpace = t.dropWhile reSpace) : directiveAt prev s = directiveAt prev t := by
  unfold directiveAt
  rw [h]

/-- A match that starts before a line that holds a token ends before that
line or exactly at its end. -/
theorem match_before_tokenLine (pre l post : Text) (hpre : EndsLine pre)
    (hl : ∀ c ∈ l, c ≠ '\n') (h : isTokenLine l = true)
    (hpost : post = [] ∨ ∃ tl, post = '\n' :: tl) (prev : Option Char) (cap post1 : Text)
    (hm : directiveAt prev (pre ++ (l ++ post)) = some (cap, post1)) :
    post1 = post ∨ ∃ r, EndsLine r ∧ post1 = r ++ (l ++ post) := by
  have hb : prev = none ∨ prev = some '\n' := by
    by_contra hb
    simp [directiveAt, hb] at hm
  rcases dropWhile_barrier reSpace pre (l ++ post) hpre with e1 | ⟨d1, hd1, e1⟩
  · left
    rw [directiveAt_congr prev _ _ e1] at hm
    obtain ⟨cap1, -, hA⟩ := directiveAt_tokenLine_append l post h hpost prev hb
    rw [hA] at hm
    simp only [Option.some.injEq, Prod.mk.injEq] at hm
    exact hm.2.symm
  · unfold directiveAt at hm
    rw [if_pos hb, e1] at hm
    cases h1 : dropLits ['/', '/'] (d1 ++ (l ++ post)) with
    | none => simp [h1] at hm
    | some s1 =>
      rw [h1] at hm
      simp only [Option.bind] at hm
      obtain ⟨d2, hd2, rfl⟩ := dropLits_barrier _ _ _ _ hd1 (by decide) h1
      rcases dropWhile_barrier reSpace d2 (l ++ post) hd2 with e3 | ⟨d3, hd3, e3⟩
      · obtain ⟨r, hr⟩ := tokenLine_dropWhile l post h
        rw [e3, hr] at hm
        simp [dropLits] at hm
      · rw [e3] at hm
        cases h2 : dropLits ['m', 'a', 't', 'c', 'h', 'e', 'r'] (d3 ++ (l ++ post)) with
        | none => simp [h2] at hm
        | some s2 =>
          rw [h2] at hm
          simp only at hm
          obtain ⟨d4, hd4, rfl⟩ := dropLits_barrier _ _ _ _ hd3 (by decide) h2
          obtain ⟨d5, hd5, e5⟩ := dropOpt_barrier 's' d4 (l ++ post) hd4 (by decide)
          obtain ⟨d6, hd6, e6⟩ := dropOpt_barrier ':' d5 (l ++ post) hd5 (by decide)
          rw [e5, e6] at hm
          obtain ⟨e, rfl⟩ := hd6
          cases e with
          | nil =>
            simp only [List.nil_append, List.singleton_append] at hm
            by_cases hc : reSpace '\n' = true
            swap
            · simp [hc] at hm
            simp only [hc, if_true, Option.some.injEq, Prod.mk.injEq] at hm
            left
            rw [← hm.2]
            exact tokenLine_tail l post hl h hpost
          | cons c e =>
            simp only [List.cons_append] at hm
            by_cases hc : reSpace c = true
            swap
            · simp [hc] at hm
            simp only [hc, if_true, Option.some.injEq, Prod.mk.injEq] at hm
            rcases dropWhile_barrier reSpace (e ++ ['\n']) (l ++ post) ⟨e, rfl⟩ with
              e8 | ⟨d8, hd8, e8⟩
            · left
              rw [← hm.2, e8]
              exact tokenLine_tail l post hl h hpost
            · right
              obtain ⟨d9, hd9, e9⟩ := dropWhile_reDot_barrier d8 (l ++ post) hd8
              exact ⟨d9, hd9, by rw [← hm.2, e8, e9]⟩

theorem prevAfter_of_ne_nil (p q : Option Char) (m : Text) (h : m ≠ []) :
    prevAfter p m = prevAfter q m := by
  have : m.getLast? = some (m.getLast h) := List.getLast?_eq_getLast _ _
  simp only [prevAfter, this]

theorem tokenLine_ne_nil (l : Text) (h : isTokenLine l = true) : l ≠ [] := by
  rintro rfl
  exact absurd h (by decide)

theorem EndsLine_tail (c : Char) (d : Text) (h : EndsLine (c :: d)) (hd : d ≠ []) :
    EndsLine d := by
  obtain ⟨e, he⟩ := h
  cases e with
  | nil =>
    simp only [List.nil_append, List.cons.injEq] at he
    exact absurd he.2 hd
  | cons x e =>
    simp only [List.cons_append, List.cons.injEq] at he
    exact ⟨e, he.2⟩

theorem EndsLine_singleton (c : Char) (h : EndsLine [c]) : c = '\n' := by
  obtain ⟨e, he⟩ := h
  cases e with
  | nil => simpa using he
  | cons x e =>
    have := congrArg List.length he
    simp at this

theorem EndsLine_ne_nil (d : Text) (h : EndsLine d) : d ≠ [] := by
  obtain ⟨e, rfl⟩ := h
  simp

/-- The scan comes to a line that holds a token with a match that ends at
the end of that line, and goes on behind it. -/
theorem scan_reaches_tokenLine (l post : Text) (hl : ∀ c ∈ l, c ≠ '\n')
    (h : isTokenLine l = true) (hpost : post = [] ∨ ∃ tl, post = '\n' :: tl) (n : Nat) :
    ∀ (pre : Text) (prev : Option Char), pre.length = n →
      (pre = [] → prev = none ∨ prev = some '\n') → (pre ≠ [] → EndsLine pre) →
      ∃ M m c, findAllFrom matchersRegex prev (pre ++ (l ++ post)) 0
        = M ++ (m, c) :: findAllFrom matchersRegex (prevAfter none l) post 0 := by
  induction n using Nat.strong_induction_on with
  | _ n ih =>
    intro pre prev hn hnil hcons
    have hlne := tokenLine_ne_nil l h
    cases pre with
    | nil =>
      obtain ⟨cap, -, hA⟩ := directiveAt_tokenLine_append l post h hpost prev (hnil rfl)
      rw [← matchAt_matchersRegex] at hA
      refine ⟨[], l, cap, ?_⟩
      rw [List.nil_append, findAllFrom_match matchersRegex hA hlne,
        prevAfter_of_ne_nil prev none l hlne, List.nil_append]
    | cons c pre1 =>
      have hpre : EndsLine (c :: pre1) := hcons (by simp)
      cases hm : matchAt matchersRegex prev (c :: pre1 ++ (l ++ post)) with
      | none =>
        have hstep : findAllFrom matchersRegex prev (c :: pre1 ++ (l ++ post)) 0
            = findAllFrom matchersRegex (some c) (pre1 ++ (l ++ post)) 0 :=
          findAllFrom_none matchersRegex hm
        rw [hstep]
        refine ih pre1.length (by rw [← hn]; simp) pre1 (some c) rfl ?_ ?_
        · intro e
          rw [e] at hpre
          right
          rw [EndsLine_singleton c hpre]
        · exact EndsLine_tail c pre1 hpre
      | some r =>
        obtain ⟨cap, post1⟩ := r
        obtain ⟨m1, hne, e⟩ := proper_matchersRegex _ _ _ _ hm
        have hd := hm
        rw [matchAt_matchersRegex] at hd
        rw [e] at hm
        rcases match_before_tokenLine (c :: pre1) l post hpre hl h hpost prev cap post1 hd with
          rfl | ⟨r, hr, rfl⟩
        · have em : m1 = c :: pre1 ++ l :=
            List.append_cancel_right
              (show m1 ++ post1 = (c :: pre1 ++ l) ++ post1 by rw [← e]; simp)
          refine ⟨[], m1, cap, ?_⟩
          rw [e, findAllFrom_match matchersRegex hm hne, List.nil_append, em,
            prevAfter_of_ne_nil prev none (c :: pre1 ++ l) (by simp)]
          congr 2
          rw [show c :: pre1 ++ l = (c :: pre1) ++ l from rfl, prevAfter_append]
          exact prevAfter_of_ne_nil _ none l hlne
        · have ep : c :: pre1 = m1 ++ r :=
            List.append_cancel_right
              (show (c :: pre1) ++ (l ++ post) = (m1 ++ r) ++ (l ++ post) by rw [e]; simp)
          have hlen : r.length < n := by
            have := congrArg List.length ep
            have h0 : 0 < m1.length := List.length_pos.2 hne
            simp only [List.length_cons, List.length_append] at this
            rw [← hn]
            simp only [List.length_cons]
            omega
          obtain ⟨M, m, c2, hM⟩ := ih r.length hlen r (prevAfter prev m1) rfl
            (fun e0 => absurd e0 (EndsLine_ne_nil r hr)) (fun _ => hr)
          refine ⟨(m1, cap) :: M, m, c2, ?_⟩
          rw [e, findAllFrom_match matchersRegex hm hne, hM]
          rfl

theorem lines_cons (c : Char) (doc : Text) :
    lines (c :: doc) = if c = '\n' then [] :: lines doc
      else (lines doc).modifyHead (List.cons c) := by
  unfold lines List.splitOn
  rw [List.splitOnP_cons]
  by_cases hc : c = '\n' <;> simp [hc]

theorem lines_ne_nil (doc : Text) : lines doc ≠ [] :=
  List.splitOnP_ne_nil _ _

theorem lines_no_line_feed (doc : Text) : ∀ l ∈ lines doc, ∀ c ∈ l, c ≠ '\n' := by
  induction doc with
  | nil =>
    intro l hl c hc
    rw [lines_nil, List.mem_singleton] at hl
    rw [hl] at hc
    simp at hc
  | cons d doc ih =>
    intro l hl c hc
    rw [lines_cons] at hl
    by_cases hd : d = '\n'
    · rw [if_pos hd] at hl
      rcases List.mem_cons.1 hl with rfl | hl
      · simp at hc
      · exact ih l hl c hc
    · rw [if_neg hd] at hl
      cases hx : lines doc with
      | nil => exact absurd hx (lines_ne_nil doc)
      | cons x xs =>
        rw [hx] at hl ih
        simp only [List.modifyHead_cons] at hl
        rcases List.mem_cons.1 hl with rfl | hl
        · rcases List.mem_cons.1 hc with rfl | hc
          · exact hd
          · exact ih x (List.mem_cons_self _ _) c hc
        · exact ih l (List.mem_cons_of_mem _ hl) c hc

/-- A document from its first line and the lines after it. -/
theorem doc_of_lines_cons (doc l : Text) (B : List Text) (h : lines doc = l :: B) :
    (B = [] ∧ doc = l) ∨ ∃ rest, doc = l ++ '\n' :: rest ∧ lines rest = B := by
  induction doc generalizing l with
  | nil =>
    rw [lines_nil] at h
    simp only [List.cons.injEq] at h
    exact Or.inl ⟨h.2.symm, h.1⟩
  | cons d doc ih =>
    rw [lines_cons] at h
    by_cases hd : d = '\n'
    · rw [if_pos hd] at h
      simp only [List.cons.injEq] at h
      right
      exact ⟨doc, by rw [← h.1, hd]; rfl, h.2⟩
    · rw [if_neg hd] at h
      cases hx : lines doc with
      | nil => exact absurd hx (lines_ne_nil doc)
      | cons x xs =>
        rw [hx] at h
        simp only [List.modifyHead_cons, List.cons.injEq] at h
        obtain ⟨rfl, rfl⟩ := h
        rcases ih x hx with ⟨h1, h2⟩ | ⟨rest, h1, h2⟩
        · exact Or.inl ⟨h1, by rw [h2]⟩
        · exact Or.inr ⟨rest, by rw [h1]; rfl, h2⟩

/-- A document around one of its lines: what stands before the line is
empty or ends in a line feed, what stands behind it is empty or starts with
one. -/
theorem doc_of_lines_append (doc : Text) (A : List Text) (l : Text) (B : List Text)
    (h : lines doc = A ++ l :: B) :
    ∃ pre post, doc = pre ++ (l ++ post) ∧ (pre = [] ∨ EndsLine pre) ∧
      ((B = [] ∧ post = []) ∨ ∃ rest, post = '\n' :: rest ∧ lines rest = B) := by
  induction A generalizing doc with
  | nil =>
    rcases doc_of_lines_cons doc l B h with ⟨h1, h2⟩ | ⟨rest, h1, h2⟩
    · exact ⟨[], [], by simp [h2], Or.inl rfl, Or.inl ⟨h1, rfl⟩⟩
    · exact ⟨[], '\n' :: rest, by simp [h1], Or.inl rfl, Or.inr ⟨rest, rfl, h2⟩⟩
  | cons a A ih =>
    rcases doc_of_lines_cons doc a (A ++ l :: B) h with ⟨h1, -⟩ | ⟨rest, h1, h2⟩
    · simp at h1
    · obtain ⟨pre, post, e, hpre, hpost⟩ := ih rest h2
      refine ⟨a ++ '\n' :: pre, post, by rw [h1, e]; simp, Or.inr ?_, hpost⟩
      rcases hpre with rfl | ⟨e1, rfl⟩
      · exact ⟨a, rfl⟩
      · exact ⟨a ++ '\n' :: e1, by simp⟩

/-- Two lines of a document that each hold a directive with a token give at
least two matches of the pattern. -/
theorem two_token_lines_two_matches (doc : Text) (A B C : List Text) (l1 l2 : Text)
    (hlines : lines doc = A ++ l1 :: (B ++ l2 :: C))
    (h1 : isTokenLine l1 = true) (h2 : isTokenLine l2 = true) :
    1 < (FindAllStringSubmatch matchersRegex doc).length := by
  have hmem1 : l1 ∈ lines doc := by rw [hlines]; simp
  have hmem2 : l2 ∈ lines doc := by rw [hlines]; simp
  have hl1 := lines_no_line_feed doc l1 hmem1
  have hl2 := lines_no_line_feed doc l2 hmem2
  obtain ⟨pre, post, e, hpre, hpost⟩ := doc_of_lines_append doc A l1 (B ++ l2 :: C) hlines
  rcases hpost with ⟨hB, -⟩ | ⟨rest, rfl, hrest⟩
  · simp at hB
  obtain ⟨mid, post2, e2, hmidp, hpost2⟩ := doc_of_lines_append rest B l2 C hrest
  have hp2 : post2 = [] ∨ ∃ tl, post2 = '\n' :: tl := by
    rcases hpost2 with ⟨-, h3⟩ | ⟨r, h3, -⟩
    · exact Or.inl h3
    · exact Or.inr ⟨r, h3⟩
  obtain ⟨M, m, c, hM⟩ := scan_reaches_tokenLine l1 ('\n' :: rest) hl1 h1 (Or.inr ⟨rest, rfl⟩)
    pre.length pre none rfl (fun _ => Or.inl rfl)
    (fun hne => hpre.resolve_left hne)
  have hmid : EndsLine ('\n' :: mid) := by
    rcases hmidp with rfl | ⟨e1, rfl⟩
    · exact ⟨[], rfl⟩
    · exact ⟨'\n' :: e1, rfl⟩
  obtain ⟨M2, m2, c2, hM2⟩ := scan_reaches_tokenLine l2 post2 hl2 h2 hp2
    ('\n' :: mid).length ('\n' :: mid) (prevAfter none l1) rfl
    (fun hnil => absurd hnil (by simp)) (fun _ => hmid)
  have er : '\n' :: rest = ('\n' :: mid) ++ (l2 ++ post2) := by rw [e2]; rfl
  unfold FindAllStringSubmatch
  rw [e, hM, er, hM2]
  simp only [List.length_append, List.length_cons]
  omega

/-- A walk that holds a candidate file in which two lines each hold a
directive with a token never yields pipelines: the load ends in the error of
line 175 (or earlier). -/
theorem load_not_ok_of_two_token_lines (walk : List WalkArgs) (a : WalkArgs) (content : Text)
    (ha : a ∈ walk) (hinfo : a.info = some ⟨false⟩) (herr : a.err = none)
    (hext : Ext a.path = ".alloy".toList ∨ Ext a.path = ".river".toList)
    (hread : a.readFile = .ok content) (A B C : List Text) (l1 l2 : Text)
    (hlines : lines content = A ++ l1 :: (B ++ l2 :: C))
    (h1 : isTokenLine l1 = true) (h2 : isTokenLine l2 = true) (ps : List Pipeline) :
    loadPipelinesFromFiles walk ≠ .ok ps :=
  load_not_ok_of_many walk a content ha hinfo herr hext hread
    (two_token_lines_two_matches content A B C l1 l2 hlines h1 h2) ps

/-! ## The code at concrete inputs -/

/-- C1 (the code at the failing input): `writePipelineToFile` writes
`// matchers: team=infra env=prod\n<body>` for the matchers `team=infra`,
`env=prod` and the body `<body>`, which holds no directive. Loading that
text from `alerts.alloy` gives the name and the matchers back, but the
contents `\n<body>`, not `<body>`: the line feed that the writer puts behind
the directive line (line 201) is left in by the loader (lines 153, 183).
Writing and loading once more gives `\n\n<body>`: every cycle adds one line
feed. -/
theorem round_trip_keeps_the_line_feed :
    writePipelineToFile
        ⟨["team=infra".toList, "env=prod".toList], "<body>".toList, "alerts".toList⟩
      = "// matchers: team=infra env=prod\n<body>".toList ∧
    directiveLines "<body>".toList = [] ∧
    FindAllStringSubmatch matchersRegex "<body>".toList = [] ∧
    loadPipelinesFromFiles
        [fileEntry "alerts.alloy" "// matchers: team=infra env=prod\n<body>"]
      = .ok [⟨["team=infra".toList, "env=prod".toList], "\n<body>".toList, "alerts".toList⟩] ∧
    loadPipelinesFromFiles
        [fileEntry "alerts.alloy" "// matchers: team=infra env=prod\n<body>"]
      ≠ .ok [⟨["team=infra".toList, "env=prod".toList], "<body>".toList, "alerts".toList⟩] ∧
    writePipelineToFile
        ⟨["team=infra".toList, "env=prod".toList], "\n<body>".toList, "alerts".toList⟩
      = "// matchers: team=infra env=prod\n\n<body>".toList ∧
    loadPipelinesFromFiles
        [fileEntry "alerts.alloy" "// matchers: team=infra env=prod\n\n<body>"]
      = .ok [⟨["team=infra".toList, "env=prod".toList], "\n\n<body>".toList,
          "alerts".toList⟩] := by
  decide

/-- C2 (the code at the failing input): the document has two directive
lines, `// matchers: ` and `// matchers: team=infra`; the white space after
the first keyword runs over the line feed, the pattern matches once, and the
load accepts the document with the second comment as its matchers. -/
theorem two_directive_lines_are_accepted :
    directiveLines "// matchers: \n// matchers: team=infra\nbody".toList
      = ["// matchers: ".toList, "// matchers: team=infra".toList] ∧
    loadPipelinesFromFiles
        [fileEntry "d/x.alloy" "// matchers: \n// matchers: team=infra\nbody"]
      = .ok [⟨["//".toList, "matchers:".toList, "team=infra".toList], "\nbody".toList,
          "x".toList⟩] := by
  decide

/-- C6 (the code at the failing input): no line of the document is a
directive line, the comment marker stands on one line and the keyword on the
next; the pattern matches across the line feed, and the load gives a matcher
and empty contents. -/
theorem match_across_lines_without_directive_line :
    directiveLines "//\nmatchers: a=b".toList = [] ∧
    loadPipelinesFromFiles [fileEntry "d/x.alloy" "//\nmatchers: a=b"]
      = .ok [⟨["a=b".toList], [], "x".toList⟩] := by
  decide

/-- C7 (as stated, refuted): each document is one directive line. Two
spaces between tokens give an empty matcher, a tab stays inside a matcher,
and a directive without tokens gives one empty matcher, not none. -/
theorem matchers_are_split_at_single_spaces :
    (directiveLines "// matchers: a  b\tc".toList = ["// matchers: a  b\tc".toList] ∧
      loadPipelinesFromFiles [fileEntry "d/x.alloy" "// matchers: a  b\tc"]
        = .ok [⟨["a".toList, [], "b\tc".toList], [], "x".toList⟩]) ∧
    (directiveLines "// matchers: ".toList = ["// matchers: ".toList] ∧
      loadPipelinesFromFiles [fileEntry "d/x.alloy" "// matchers: "]
        = .ok [⟨[[]], [], "x".toList⟩]) := by
  decide

/-- C8 (the code at the failing inputs): each document has one directive
line. In the first no token follows the keyword: the white space after it
runs over the line feed, the next line becomes the matchers and is gone from
the contents. In the second a line of one space stands before the directive:
it is part of the match and gone from the contents. In the third the
contents still hold a match of the pattern. -/
theorem extraction_removes_more_than_the_directive_line :
    (lines "// matchers: \nbody line\nrest".toList
        = ["// matchers: ".toList, "body line".toList, "rest".toList] ∧
      directiveLines "// matchers: \nbody line\nrest".toList = ["// matchers: ".toList] ∧
      loadPipelinesFromFiles [fileEntry "d/x.alloy" "// matchers: \nbody line\nrest"]
        = .ok [⟨["body".toList, "line".toList], "\nrest".toList, "x".toList⟩] ∧
      lines "\nrest".toList = [[], "rest".toList] ∧
      "body line".toList ∉ lines "\nrest".toList) ∧
    (lines " \n// matchers: a\nbody".toList
        = [" ".toList, "// matchers: a".toList, "body".toList] ∧
      directiveLines " \n// matchers: a\nbody".toList = ["// matchers: a".toList] ∧
      loadPipelinesFromFiles [fileEntry "d/x.alloy" " \n// matchers: a\nbody"]
        = .ok [⟨["a".toList], "\nbody".toList, "x".toList⟩] ∧
      lines "\nbody".toList = [[], "body".toList] ∧
      " ".toList ∉ lines "\nbody".toList) ∧
    (directiveLines "//\n// matchers: x\n matchers: y".toList = ["// matchers: x".toList] ∧
      loadPipelinesFromFiles [fileEntry "d/x.alloy" "//\n// matchers: x\n matchers: y"]
        = .ok [⟨["x".toList], "//\n\n matchers: y".toList, "x".toList⟩] ∧
      FindAllStringSubmatch matchersRegex "//\n\n matchers: y".toList
        = [("//\n\n matchers: y".toList, "y".toList)]) := by
  decide

/-- C9 (the code at the failing inputs): a directory that cannot be listed
is passed with its error, the callback returns nil for it, and the load
returns the pipelines found elsewhere and no error; an entry whose `Lstat`
failed is passed with a nil `info`, and the callback crashes. -/
theorem walk_errors_are_dropped_or_crash :
    loadPipelinesFromFiles
        [dirEntry "d" none, dirEntry "d/sub" (some "permission denied"),
          fileEntry "d/x.alloy" "body"]
      = .ok [⟨[], "body".toList, "x".toList⟩] ∧
    loadPipelinesFromFiles [lstatFailed "missing" "no such file or directory"] = .panic ∧
    loadPipelinesFromFiles [dirEntry "d" none, lstatFailed "d/x.alloy" "permission denied"]
      = .panic := by
  decide

/-- C10 (as stated, refuted): `a/x.alloy` and `b/x.river` load to two
pipelines of the name `x`, and the run issues two create calls for that one
name, the first with the contents of the first document. -/
theorem same_name_is_upserted_twice :
    loadPipelinesFromFiles [fileEntry "a/x.alloy" "one", fileEntry "b/x.river" "two"]
      = .ok [⟨[], "one".toList, "x".toList⟩, ⟨[], "two".toList, "x".toList⟩] ∧
    (reconcile (fun _ => false) id false
        [⟨[], "one".toList, "x".toList⟩, ⟨[], "two".toList, "x".toList⟩] []).1
      = [⟨Call.create ⟨[], "one".toList, "x".toList⟩, false⟩,
          ⟨Call.create ⟨[], "two".toList, "x".toList⟩, false⟩] ∧
    ((upserted (reconcile (fun _ => false) id false
        [⟨[], "one".toList, "x".toList⟩, ⟨[], "two".toList, "x".toList⟩] []).1).filter
          fun p => p.Name = "x".toList).length = 2 := by
  decide

end Fleetcmdr
